import Mathlib

set_option maxRecDepth 100000

/-
Verification development for the Avogadro GaussianCube codec
(file gaussiancube.cpp of avogadrolibs: GaussianCube::read and
GaussianCube::write, plus the helpers writeFixedFloat / writeFixedInt).

The C++ code is shallowly embedded over exact data:
  * std::istream is a list of characters plus a sticky fail flag;
    formatted extraction (operator>>) skips C++ whitespace and, on a
    malformed token or end of stream, sets the fail flag and yields the
    C++11 default value 0.
  * double / float values are modeled as exact rationals.  Fixed and
    scientific iostream formatting is modeled as exact decimal rendering
    with round-half-away-from-zero at the requested precision.
  * out-of-bounds std::vector indexing (operator[]) and an attempted
    resize to a negative-turned-huge size are undefined behaviour or an
    escaping exception in C++; the embedding returns none there.
  * Core::trimmed, Core::split and Core::lexicalCast live in
    avogadro/core/utilities.h, outside the packaged sources; they are
    modeled from the spec (general string and number parsing primitives;
    lexicalCast is istringstream extraction, so it yields 0 on failure).
-/

namespace GC

/-- Character constants, kept as explicit code points to mirror the
byte-level text processing of the codec. -/
def chSpace : Char := Char.ofNat 32

def chTab : Char := Char.ofNat 9

def chNl : Char := Char.ofNat 10

def chVt : Char := Char.ofNat 11

def chFf : Char := Char.ofNat 12

def chCr : Char := Char.ofNat 13

def chDot : Char := Char.ofNat 46

def chPlus : Char := Char.ofNat 43

def chMinus : Char := Char.ofNat 45

def chZero : Char := Char.ofNat 48

def chE : Char := Char.ofNat 101

def chEUp : Char := Char.ofNat 69

/-- C++ default-locale whitespace, as skipped by formatted stream
extraction. -/
def cppIsSpace (c : Char) : Bool :=
  c == chSpace || c == chTab || c == chNl || c == chVt || c == chFf || c == chCr

/-- Numeric value of a list of decimal digit characters, most significant
first (the usual accumulate-by-ten of strtol / num_get). -/
def natOfDigits (ds : List Char) : Nat :=
  ds.foldl (fun a c => 10 * a + (c.toNat - 48)) 0

/-- Greedy parse of an unsigned decimal integer token. -/
def parseNatTok (cs : List Char) : Option (Nat × List Char) :=
  let ds := cs.takeWhile Char.isDigit
  let rest := cs.dropWhile Char.isDigit
  if ds.isEmpty then none else some (natOfDigits ds, rest)

/-- Greedy parse of an optionally signed decimal integer token, as C++
num_get does for int extraction. -/
def parseIntTok (cs : List Char) : Option (Int × List Char) :=
  match cs with
  | [] => none
  | c :: cs2 =>
    if c == chMinus then (parseNatTok cs2).map (fun p => (-(p.1 : Int), p.2))
    else if c == chPlus then (parseNatTok cs2).map (fun p => ((p.1 : Int), p.2))
    else (parseNatTok cs).map (fun p => ((p.1 : Int), p.2))

/-- Ten to an integer power, as an exact rational; phrased over Nat
powers and core Rat division so that the kernel can evaluate it. -/
def powTenZ (e : Int) : ℚ :=
  if 0 ≤ e then ((10 ^ e.toNat : Nat) : ℚ) else 1 / ((10 ^ (-e).toNat : Nat) : ℚ)

/-- Absolute value, phrased over core Rat operations so that the kernel
can evaluate it. -/
def qAbs (x : ℚ) : ℚ := if x < 0 then -x else x

/-- Exponent part of a floating-point token: an optional e or E marker
with a signed integer.  When the marker is absent nothing is consumed;
a marker not followed by a valid integer makes the whole token fail
(failbit in C++). -/
def parseExpPart (cs : List Char) : Option (Int × List Char) :=
  match cs with
  | [] => some (0, [])
  | c :: cs2 =>
    if c == chE || c == chEUp then
      match parseIntTok cs2 with
      | some (v, r) => some (v, r)
      | none => none
    else some (0, c :: cs2)

/-- Unsigned part of a floating-point token: digits, an optional point
with more digits, an optional exponent.  At least one mantissa digit is
required. -/
def parseFracTok (cs : List Char) : Option (ℚ × List Char) :=
  let ip := cs.takeWhile Char.isDigit
  let cs1 := cs.dropWhile Char.isDigit
  match cs1 with
  | [] => if ip.isEmpty then none else some ((natOfDigits ip : ℚ), [])
  | c :: cs2 =>
    if c == chDot then
      let fp := cs2.takeWhile Char.isDigit
      let cs3 := cs2.dropWhile Char.isDigit
      if ip.isEmpty && fp.isEmpty then none
      else
        match parseExpPart cs3 with
        | some (e, r) =>
          some (((natOfDigits ip : ℚ) + (natOfDigits fp : ℚ) / ((10 ^ fp.length : Nat) : ℚ))
                  * powTenZ e, r)
        | none => none
    else if ip.isEmpty then none
    else
      match parseExpPart cs1 with
      | some (e, r) => some ((natOfDigits ip : ℚ) * powTenZ e, r)
      | none => none

/-- Greedy parse of an optionally signed floating-point token, the
strtod-style grammar used by num_get for double and float extraction. -/
def parseQTok (cs : List Char) : Option (ℚ × List Char) :=
  match cs with
  | [] => none
  | c :: cs2 =>
    if c == chMinus then (parseFracTok cs2).map (fun p => (-p.1, p.2))
    else if c == chPlus then (parseFracTok cs2).map (fun p => (p.1, p.2))
    else parseFracTok (c :: cs2)

/-- A std::istream: remaining characters plus a sticky fail flag.  After
any failed extraction every later read fails without touching the
stream. -/
structure IStream where
  data : List Char
  failed : Bool
  deriving DecidableEq, Repr

def mkStream (cs : List Char) : IStream := ⟨cs, false⟩

/-- std::getline(in, line): on a failed stream the string keeps its
previous contents (the sentry fails before the erase); at end of stream
the failbit is set and the string is empty; otherwise characters up to
the next newline are extracted and the newline is consumed. -/
def getlineS (s : IStream) (prev : List Char) : List Char × IStream :=
  if s.failed then (prev, s)
  else if s.data.isEmpty then ([], ⟨[], true⟩)
  else
    let l := s.data.takeWhile (fun c => c != chNl)
    let r := s.data.dropWhile (fun c => c != chNl)
    (l, ⟨r.drop 1, false⟩)

/-- Formatted int extraction (in >> n): skip whitespace, parse a signed
integer token; on failure the C++11 value is 0 and the failbit is set. -/
def readIntS (s : IStream) : Int × IStream :=
  if s.failed then (0, s)
  else
    let cs := s.data.dropWhile cppIsSpace
    match parseIntTok cs with
    | some (v, r) => (v, ⟨r, false⟩)
    | none => (0, ⟨cs, true⟩)

/-- Formatted double / float extraction (in >> x), with values as exact
rationals. -/
def readQS (s : IStream) : ℚ × IStream :=
  if s.failed then (0, s)
  else
    let cs := s.data.dropWhile cppIsSpace
    match parseQTok cs with
    | some (v, r) => (v, ⟨r, false⟩)
    | none => (0, ⟨cs, true⟩)

/-- Whitespace recognized by Core::trimmed. -/
def trimIsWs (c : Char) : Bool :=
  c == chSpace || c == chTab || c == chNl || c == chCr

/-- Modelled from the spec: Core::trimmed (avogadro/core/utilities.h, a
pre-existing string primitive outside the packaged sources) removes
leading and trailing whitespace from a line. -/
def trimmed (cs : List Char) : List Char :=
  ((cs.dropWhile trimIsWs).reverse.dropWhile trimIsWs).reverse

def splitChAux (delim : Char) : List Char → List Char → List (List Char)
  | [], acc => [acc.reverse]
  | c :: cs, acc =>
    if c == delim then acc.reverse :: splitChAux delim cs []
    else splitChAux delim cs (c :: acc)

/-- Modelled from the spec: Core::split(line, delim) (a pre-existing
string primitive outside the packaged sources) splits on the delimiter,
skipping empty entries. -/
def splitCh (cs : List Char) (delim : Char) : List (List Char) :=
  (splitChAux delim cs []).filter (fun f => !f.isEmpty)

/-- Modelled from the spec: Core::lexicalCast over int, implemented as
istringstream extraction; yields 0 when the token is malformed. -/
def lexicalCastInt (cs : List Char) : Int :=
  (readIntS (mkStream cs)).1

/-- Modelled from the spec: Core::lexicalCast over double. -/
def lexicalCastQ (cs : List Char) : ℚ :=
  (readQS (mkStream cs)).1

/-- C++11 num_get range behaviour for short int: an out-of-range value is
clamped to the nearest limit (with failbit, which lexicalCast drops). -/
def clampShort (v : Int) : Int :=
  if v > 32767 then 32767 else if v < -32768 then -32768 else v

/-- Modelled from the spec: Core::lexicalCast over short int. -/
def lexicalCastShort (cs : List Char) : Int :=
  clampShort (lexicalCastInt cs)

/-- static_cast to unsigned char: reduction modulo 256. -/
def toUChar (v : Int) : Nat := (v % 256).toNat

/-- Vector3 of exact reals. -/
structure Vec3 where
  x : ℚ
  y : ℚ
  z : ℚ
  deriving DecidableEq, Repr

def Vec3.scale (k : ℚ) (v : Vec3) : Vec3 := ⟨k * v.x, k * v.y, k * v.z⟩

/-- Vector3i. -/
structure Vec3i where
  x : Int
  y : Int
  z : Int
  deriving DecidableEq, Repr

/-- Modelled from the spec: the Bohr to Angstrom conversion constant
(avogadro core header, outside the packaged sources); the spec gives
k = 0.529177210903 with inverse factor 1/k. -/
def BOHR_TO_ANGSTROM : ℚ := 529177210903 / 1000000000000

/-- Modelled from the spec: the inverse conversion factor. -/
def ANGSTROM_TO_BOHR : ℚ := 1 / BOHR_TO_ANGSTROM

/-- A Core::Atom as the codec uses it: atomic number (unsigned char) and
3d position. -/
structure Atom where
  atomicNumber : Nat
  pos : Vec3
  deriving DecidableEq, Repr

/-- A Core::Cube as the codec uses it: limits (min corner, dimensions,
spacing) and the flat sample buffer. -/
structure Cube where
  cmin : Vec3
  dim : Vec3i
  spacing : Vec3
  vdata : List ℚ
  deriving DecidableEq, Repr

/-- The slice of Core::Molecule that the codec touches: the "name" data
entry, the atom list, the cube list. -/
structure Molecule where
  name : List Char
  atoms : List Atom
  cubes : List Cube
  deriving DecidableEq, Repr

def emptyMol : Molecule := ⟨[], [], []⟩

/-- Observable side effects on the Molecule during decode, in order. -/
inductive Ev where
  | addAtom : Nat → Ev
  | perceiveBonds : Ev
  | addCube : Ev
  | setCubeData : Ev
  deriving DecidableEq, Repr

/-- Ghost record of the header values a decode run parsed, used to state
theorems; it does not influence behaviour. -/
structure Header where
  nAtoms : Int
  minRaw : Vec3
  dim : Vec3i
  spacingRaw : Vec3
  nCubes : Nat
  atomsRaw : List (Int × Vec3)
  deriving DecidableEq, Repr

/-- Result of GaussianCube::read: the populated molecule, the event
trace, the ghost header, and the returned bool. -/
structure DecRes where
  mol : Molecule
  trace : List Ev
  hdr : Header
  ok : Bool
  deriving DecidableEq, Repr

/-- One axis line of the cube block (source lines 61-67): field 0 is the
dimension, field i+1 the diagonal spacing component; other fields are
not read.  Out-of-bounds vector indexing is undefined behaviour, hence
none. -/
def axisFromFields (i : Nat) (fields : List (List Char)) : Option (Int × ℚ) := do
  let f0 ← fields.get? 0
  let fi ← fields.get? (i + 1)
  some (lexicalCastInt f0, lexicalCastQ fi)

/-- getline, trim, split, then read one axis line. -/
def readAxisLine (i : Nat) (s : IStream) (prev : List Char) :
    Option (IStream × List Char × Int × ℚ) := do
  let p := getlineS s prev
  let fields := splitCh (trimmed p.1) chSpace
  let d ← axisFromFields i fields
  some (p.2, p.1, d.1, d.2)

/-- Raw values of one geometry line (source lines 71-81): field 0 the
atomic number as short int, fields 2..4 the position; field 1 (the
charge) is skipped.  Missing fields are out-of-bounds indexing. -/
def atomFieldsRaw (fields : List (List Char)) : Option (Int × Vec3) := do
  let f0 ← fields.get? 0
  let f2 ← fields.get? 2
  let f3 ← fields.get? 3
  let f4 ← fields.get? 4
  some (lexicalCastShort f0, ⟨lexicalCastQ f2, lexicalCastQ f3, lexicalCastQ f4⟩)

/-- The atom actually stored: unsigned char cast of the parsed number,
position scaled by BOHR_TO_ANGSTROM (source lines 76-80). -/
def mkDecodedAtom (rw : Int × Vec3) : Atom :=
  ⟨toUChar rw.1, Vec3.scale BOHR_TO_ANGSTROM rw.2⟩

/-- Accumulator of the geometry loop. -/
structure AtomsAcc where
  s : IStream
  line : List Char
  atoms : List Atom
  raws : List (Int × Vec3)
  tr : List Ev
  deriving DecidableEq, Repr

/-- The geometry loop: abs(nAtoms) iterations of getline / trim / split /
addAtom / setPosition3d. -/
def readAtomsLoop : Nat → AtomsAcc → Option AtomsAcc
  | 0, acc => some acc
  | n + 1, acc =>
    let p := getlineS acc.s acc.line
    let fields := splitCh (trimmed p.1) chSpace
    match atomFieldsRaw fields with
    | none => none
    | some rw =>
      readAtomsLoop n
        ⟨p.2, p.1, acc.atoms ++ [mkDecodedAtom rw], acc.raws ++ [rw],
          acc.tr ++ [Ev.addAtom (toUChar rw.1)]⟩

/-- The orbital-index list: nCubes unsigned ints read and discarded. -/
def readMoList : Nat → IStream → IStream
  | 0, s => s
  | n + 1, s => readMoList n (readIntS s).2

/-- Source lines 85-93: nCubes is 1 unless nAtoms is negative, in which
case it is read from the stream together with the orbital-index list and
the rest of that line is discarded.  A negative count wraps to an
astronomically large unsigned value whose vector allocation throws in
C++; the embedding returns none there. -/
def readNCubes (nAtoms : Int) (s : IStream) (prev : List Char) :
    Option (Nat × IStream × List Char) :=
  if nAtoms < 0 then
    let p := readIntS s
    if p.1 < 0 then none
    else
      let s2 := readMoList p.1.toNat p.2
      let q := getlineS s2 prev
      some (p.1.toNat, q.2, q.1)
  else some (1, s, prev)

/-- dim(0)*dim(1)*dim(2) voxel reads (source lines 110-112); each failed
extraction leaves the C++11 default 0. -/
def readVoxels : Nat → IStream → List ℚ × IStream
  | 0, s => ([], s)
  | n + 1, s =>
    let p := readQS s
    let q := readVoxels n p.2
    (p.1 :: q.1, q.2)

/-- Accumulator of the cube loop. -/
structure CubesAcc where
  s : IStream
  line : List Char
  cubes : List Cube
  tr : List Ev
  deriving DecidableEq, Repr

/-- Source lines 103-116: per cube, addCube, setLimits(min, dim,
spacing), read dim.x*dim.y*dim.z samples, discard the rest of the line,
setData.  A negative dimension product converts to a huge size_t whose
resize throws in C++ (overflow of the int product itself is undefined
behaviour); the embedding returns none there. -/
def readCubesLoop (cmin : Vec3) (dim : Vec3i) (spacing : Vec3) :
    Nat → CubesAcc → Option CubesAcc
  | 0, acc => some acc
  | n + 1, acc =>
    let nVox : Int := dim.x * dim.y * dim.z
    if nVox < 0 then none
    else
      let p := readVoxels nVox.toNat acc.s
      let q := getlineS p.2 acc.line
      readCubesLoop cmin dim spacing n
        ⟨q.2, q.1, acc.cubes ++ [⟨cmin, dim, spacing, p.1⟩],
          acc.tr ++ [Ev.addCube, Ev.setCubeData]⟩

/-- GaussianCube::read (source lines 33-119), over an input character
list and the molecule passed in by the caller.  none models undefined
behaviour or an escaping exception; the function otherwise returns true
unconditionally (source line 118). -/
def read (input : List Char) (mol : Molecule) : Option DecRes := do
  let s0 := mkStream input
  -- Read and set name
  let p1 := getlineS s0 []
  let line1 := p1.1
  -- Read and skip field title
  let p2 := getlineS p1.2 line1
  -- Next line contains nAtoms and min
  let pn := readIntS p2.2
  let nAtoms := pn.1
  let pm0 := readQS pn.2
  let pm1 := readQS pm0.2
  let pm2 := readQS pm1.2
  let minRaw : Vec3 := ⟨pm0.1, pm1.1, pm2.1⟩
  -- capture newline before continuing
  let p3 := getlineS pm2.2 p2.1
  -- Next 3 lines contain spacing and dim
  let a0 ← readAxisLine 0 p3.2 p3.1
  let a1 ← readAxisLine 1 a0.1 a0.2.1
  let a2 ← readAxisLine 2 a1.1 a1.2.1
  let dim : Vec3i := ⟨a0.2.2.1, a1.2.2.1, a2.2.2.1⟩
  let spacingRaw : Vec3 := ⟨a0.2.2.2, a1.2.2.2, a2.2.2.2⟩
  -- Geometry block
  let acc1 ← readAtomsLoop nAtoms.natAbs ⟨a2.1, a2.2.1, [], [], []⟩
  -- Optional multi-cube line
  let nc ← readNCubes nAtoms acc1.s acc1.line
  -- Render molecule: perceiveBondsSimple
  let tr2 := acc1.tr ++ [Ev.perceiveBonds]
  -- min and spacing are in bohr units, convert to angstrom
  let minC := Vec3.scale BOHR_TO_ANGSTROM minRaw
  let spacingC := Vec3.scale BOHR_TO_ANGSTROM spacingRaw
  -- Cube block
  let acc2 ← readCubesLoop minC dim spacingC nc.1 ⟨nc.2.1, nc.2.2, [], tr2⟩
  some ⟨⟨line1, mol.atoms ++ acc1.atoms, mol.cubes ++ acc2.cubes⟩,
        acc2.tr,
        ⟨nAtoms, minRaw, dim, spacingRaw, nc.1, acc1.raws⟩,
        true⟩

/-- Left padding to a given width (std::setw semantics: never
truncates). -/
def padLeftWith (c : Char) (w : Nat) (s : List Char) : List Char :=
  List.replicate (w - s.length) c ++ s

/-- Decimal digit characters of a natural number, most significant
first, by fuel-indexed structural recursion so that the kernel can
evaluate it. -/
def natCharsAux : Nat → Nat → List Char
  | 0, _ => []
  | fuel + 1, n =>
    if n < 10 then [Char.ofNat (48 + n)]
    else natCharsAux fuel (n / 10) ++ [Char.ofNat (48 + n % 10)]

def natChars (n : Nat) : List Char := natCharsAux (n + 1) n

/-- Round half away from zero of a nonnegative rational, as a natural
number; models the decimal rounding of iostream formatting. -/
def rndHalf (x : ℚ) : Nat :=
  (x + 1 / 2).num.toNat / (x + 1 / 2).den

/-- Digits content of std::fixed formatting with 6-digit precision
(sign, integer part, point, exactly 6 fraction digits). -/
def fixContent (x : ℚ) : List Char :=
  let n := rndHalf (qAbs x * 1000000)
  (if x < 0 then [chMinus] else []) ++ natChars (n / 1000000) ++ [chDot] ++
    padLeftWith chZero 6 (natChars (n % 1000000))

/-- writeFixedFloat (source lines 121-125): setw(12), fixed, right,
setprecision(6). -/
def writeFixedFloat (x : ℚ) : List Char :=
  padLeftWith chSpace 12 (fixContent x)

/-- writeFixedInt (source lines 127-131): setw(5) of an unsigned int;
an Int argument first converts modulo 2^32. -/
def writeFixedInt (v : Int) : List Char :=
  padLeftWith chSpace 5 (natChars ((v % 4294967296).toNat))

/-- Decimal exponent of a positive rational: the unique e with
10^e <= x < 10^(e+1), computed from digit lengths. -/
def qExpNN (x : ℚ) : Int :=
  let num := x.num.toNat
  let den := x.den
  if den ≤ num then ((natChars (num / den)).length : Int) - 1
  else
    let d := (natChars (den / num)).length
    if den ≤ num * 10 ^ (d - 1) then -((d : Int) - 1) else -(d : Int)

/-- Digits content of std::scientific formatting with 5-digit precision:
sign, one leading digit, point, 5 digits, e, exponent sign, at least two
exponent digits; rounding may carry into the exponent. -/
def sciContent (x : ℚ) : List Char :=
  if x = 0 then
    [chZero, chDot] ++ List.replicate 5 chZero ++ [chE, chPlus, chZero, chZero]
  else
    let e := qExpNN (qAbs x)
    let scaled := rndHalf (qAbs x * powTenZ (-e) * 100000)
    let sc := if scaled = 1000000 then 100000 else scaled
    let e2 := if scaled = 1000000 then e + 1 else e
    (if x < 0 then [chMinus] else []) ++ natChars (sc / 100000) ++ [chDot] ++
      padLeftWith chZero 5 (natChars (sc % 100000)) ++ [chE] ++
      (if e2 < 0 then [chMinus] else [chPlus]) ++
      padLeftWith chZero 2 (natChars e2.natAbs)

/-- The voxel formatting of source lines 196-201: setw(13), right,
scientific, setprecision(5). -/
def writeSciFloat (x : ℚ) : List Char :=
  padLeftWith chSpace 13 (sciContent x)

def nlC : List Char := [chNl]

/-- Source lines 196-201: the raw cube values with a newline after every
value at an index congruent to 5 mod 6. -/
def writeValuesAux : Nat → List ℚ → List Char
  | _, [] => []
  | i, v :: vs =>
    writeSciFloat v ++ (if i % 6 = 5 then nlC else []) ++ writeValuesAux (i + 1) vs

def writeValues (vs : List ℚ) : List Char := writeValuesAux 0 vs

def banner : List Char :=
  "Gaussian Cube file generated by Avogadro.".toList

/-- One geometry output line (source lines 179-192); in this embedding
every atom handle of the molecule value is valid, so the InvalidAtom
branch is unreachable. -/
def atomLine (a : Atom) : List Char :=
  writeFixedInt (a.atomicNumber : Int) ++ writeFixedFloat 0 ++
    writeFixedFloat (a.pos.x * ANGSTROM_TO_BOHR) ++
    writeFixedFloat (a.pos.y * ANGSTROM_TO_BOHR) ++
    writeFixedFloat (a.pos.z * ANGSTROM_TO_BOHR) ++ nlC

/-- GaussianCube::write (source lines 133-204): the emitted characters
and the returned bool.  With no cube to write it returns false having
emitted nothing. -/
def write (mol : Molecule) : List Char × Bool :=
  match mol.cubes with
  | [] => ([], false)
  | cube :: _ =>
    let minB := Vec3.scale ANGSTROM_TO_BOHR cube.cmin
    let spacingB := Vec3.scale ANGSTROM_TO_BOHR cube.spacing
    let dim := cube.dim
    (banner ++ nlC ++
      (if mol.name.length ≠ 0 then mol.name else []) ++ nlC ++
      writeFixedInt (mol.atoms.length : Int) ++
      writeFixedFloat minB.x ++ writeFixedFloat minB.y ++ writeFixedFloat minB.z ++
      writeFixedInt 1 ++ nlC ++
      writeFixedInt dim.x ++ writeFixedFloat spacingB.x ++
      writeFixedFloat 0 ++ writeFixedFloat 0 ++ nlC ++
      writeFixedInt dim.y ++ writeFixedFloat 0 ++
      writeFixedFloat spacingB.y ++ writeFixedFloat 0 ++ nlC ++
      writeFixedInt dim.z ++ writeFixedFloat 0 ++ writeFixedFloat 0 ++
      writeFixedFloat spacingB.z ++ nlC ++
      (mol.atoms.map atomLine).flatten ++
      writeValues cube.vdata,
      true)

/-- The molecule-side events of one pass of the cube loop, repeated. -/
def cubeEvs : Nat → List Ev
  | 0 => []
  | n + 1 => Ev.addCube :: Ev.setCubeData :: cubeEvs n

/-- A well-formed two-atom cube input, the concrete scenario of the
spec: dims 2x2x2, spacing 0.5, carbon at the origin, oxygen at x = 1
bohr, voxels 1..8. -/
def demoInput : List Char :=
  ("water\ncomment line\n    2    0.000000    0.000000    0.000000    1\n    2    0.500000    0.000000    0.000000\n    2    0.000000    0.500000    0.000000\n    2    0.000000    0.000000    0.500000\n    6    0.000000    0.000000    0.000000    0.000000\n    8    0.000000    1.000000    0.000000    0.000000\n 1.0 2.0 3.0 4.0 5.0 6.0\n 7.0 8.0\n").toList

/-- The same input truncated inside the voxel block: 8 samples are
required but only 4 are present. -/
def demoTrunc : List Char :=
  ("water\ncomment line\n    2    0.000000    0.000000    0.000000    1\n    2    0.500000    0.000000    0.000000\n    2    0.000000    0.500000    0.000000\n    2    0.000000    0.000000    0.500000\n    6    0.000000    0.000000    0.000000    0.000000\n    8    0.000000    1.000000    0.000000    0.000000\n 1.0 2.0 3.0 4.0\n").toList

/-- An input whose first axis line declares dimension 0. -/
def demoZeroDim : List Char :=
  ("name line\ncomment\n    1    0.000000    0.000000    0.000000    1\n    0    0.500000    0.000000    0.000000\n    3    0.000000    0.500000    0.000000\n    3    0.000000    0.000000    0.500000\n    6    0.000000    0.000000    0.000000    0.000000\n").toList

/-- An input whose axis lines carry non-zero off-diagonal components. -/
def demoOffDiag : List Char :=
  ("axes demo\ncomment\n    1    0.000000    0.000000    0.000000    1\n    2    0.500000    0.125000    0.250000\n    2    0.333000    0.500000    0.125000\n    2    0.250000    0.125000    0.500000\n    6    0.000000    0.000000    0.000000    0.000000\n 0.0 0.0 0.0 0.0 0.0 0.0\n 0.0 0.0\n").toList

/-- A multi-cube input: nAtoms = -1, nCubes = 2 with orbital indices 5
and 6, one atom, then two one-sample voxel blocks. -/
def demoMulti : List Char :=
  ("mo run\ncomment\n   -1    0.000000    0.000000    0.000000\n    1    1.000000    0.000000    0.000000\n    1    0.000000    1.000000    0.000000\n    1    0.000000    0.000000    1.000000\n    6    0.000000    0.000000    0.000000    0.000000\n    2    5    6\n 5.0\n 6.0\n").toList

/-- A single-grid molecule whose numeric values are all exactly
representable at the declared output precision. -/
def demoMol : Molecule :=
  ⟨("water").toList, [⟨8, ⟨0, 0, 0⟩⟩],
    [⟨⟨0, 0, 0⟩, ⟨1, 1, 1⟩, ⟨BOHR_TO_ANGSTROM, BOHR_TO_ANGSTROM, BOHR_TO_ANGSTROM⟩, [0]⟩]⟩

/-- The voxel layout as the spec words it, for comparison with
writeValues: the buffer in groups of six, each full group followed by a
newline, a trailing partial group left unterminated.  The fuel argument
makes the six-at-a-time recursion structural. -/
def writeValuesSpecAux : Nat → List ℚ → List Char
  | _, [] => []
  | 0, _ => []
  | f + 1, vs =>
    ((vs.take 6).map writeSciFloat).flatten ++
      (if 6 ≤ vs.length then nlC else []) ++ writeValuesSpecAux f (vs.drop 6)

def writeValuesSpec (vs : List ℚ) : List Char := writeValuesSpecAux vs.length vs

/-- The numeric value of the fixed-format field fixContent x, as parsed
back: the 6-decimal rounding of x carrying the sign of x (a negative
value rounded to zero parses back to plain 0, since text carries no
signed zero in this exact model). -/
def fixVal (x : ℚ) : ℚ :=
  (if x < 0 then -1 else 1) * ((rndHalf (qAbs x * 1000000) : ℚ) / 1000000)

/-- The numeric value of the scientific-format field sciContent x, as
parsed back. -/
def sciVal (x : ℚ) : ℚ :=
  if x = 0 then 0
  else
    let e := qExpNN (qAbs x)
    let scaled := rndHalf (qAbs x * powTenZ (-e) * 100000)
    let sc := if scaled = 1000000 then 100000 else scaled
    let e2 := if scaled = 1000000 then e + 1 else e
    (if x < 0 then -1 else 1) * (((sc : ℚ) / 100000) * powTenZ e2)

/-- The rounded 6-digit mantissa of sciContent, named for reuse in
proofs: scaled value before the carry check. -/
def sciScaled (x : ℚ) : Nat :=
  rndHalf (qAbs x * powTenZ (-(qExpNN (qAbs x))) * 100000)

/-- The rounded mantissa of sciContent after the carry check. -/
def sciSc (x : ℚ) : Nat :=
  if sciScaled x = 1000000 then 100000 else sciScaled x

/-- The exponent of sciContent after the carry check. -/
def sciE2 (x : ℚ) : Int :=
  if sciScaled x = 1000000 then qExpNN (qAbs x) + 1 else qExpNN (qAbs x)

/-- A fixed-format quantity that round-trips byte-identically: its field
content fits strictly inside the 12-character column (so adjacent fields
stay separated by padding) and it is not a negative value that rounds to
zero (which C++ would print as -0.000000 and reproduce only via IEEE
signed zero, absent from this exact model). -/
def fixOk (x : ℚ) : Prop :=
  (fixContent x).length < 12 ∧ (x < 0 → rndHalf (qAbs x * 1000000) ≠ 0)

/-- A scientific-format quantity whose field content fits strictly
inside the 13-character column. -/
def sciOk (x : ℚ) : Prop := (sciContent x).length < 13

/-- Encode-side conditions on one atom for a byte-identical round trip:
an in-range atomic number and positions whose converted fixed fields are
well behaved. -/
def atomOk (a : Atom) : Prop :=
  a.atomicNumber < 256 ∧ fixOk (a.pos.x * ANGSTROM_TO_BOHR) ∧
    fixOk (a.pos.y * ANGSTROM_TO_BOHR) ∧ fixOk (a.pos.z * ANGSTROM_TO_BOHR)

/-- Encode-side conditions on the emitted cube: nonnegative in-int-range
dimensions, a buffer of exactly the declared size, and well-behaved
converted origin, spacing and sample fields. -/
def cubeOk (c : Cube) : Prop :=
  0 ≤ c.dim.x ∧ c.dim.x < 2147483648 ∧
  0 ≤ c.dim.y ∧ c.dim.y < 2147483648 ∧
  0 ≤ c.dim.z ∧ c.dim.z < 2147483648 ∧
  c.vdata.length = (c.dim.x * c.dim.y * c.dim.z).toNat ∧
  fixOk (ANGSTROM_TO_BOHR * c.cmin.x) ∧ fixOk (ANGSTROM_TO_BOHR * c.cmin.y) ∧
  fixOk (ANGSTROM_TO_BOHR * c.cmin.z) ∧
  fixOk (ANGSTROM_TO_BOHR * c.spacing.x) ∧ fixOk (ANGSTROM_TO_BOHR * c.spacing.y) ∧
  fixOk (ANGSTROM_TO_BOHR * c.spacing.z) ∧
  (∀ v ∈ c.vdata, sciOk v)

/-- Encode-side conditions on the molecule: a newline-free name, an
in-int-range atom count, well-behaved atoms. -/
def molOk (mol : Molecule) : Prop :=
  chNl ∉ mol.name ∧ mol.atoms.length < 2147483648 ∧ ∀ a ∈ mol.atoms, atomOk a

/-- The atom that decoding an encoded atom line produces: the same
atomic number, the position rounded through the fixed-format field. -/
def decAtomOf (a : Atom) : Atom :=
  ⟨a.atomicNumber, Vec3.scale BOHR_TO_ANGSTROM
    ⟨fixVal (a.pos.x * ANGSTROM_TO_BOHR), fixVal (a.pos.y * ANGSTROM_TO_BOHR),
     fixVal (a.pos.z * ANGSTROM_TO_BOHR)⟩⟩

/-- The raw header record of one decoded encoded atom line. -/
def rawOf (a : Atom) : Int × Vec3 :=
  ((a.atomicNumber : Int),
    ⟨fixVal (a.pos.x * ANGSTROM_TO_BOHR), fixVal (a.pos.y * ANGSTROM_TO_BOHR),
     fixVal (a.pos.z * ANGSTROM_TO_BOHR)⟩)

/-- The body of one geometry output line: atomLine without its trailing
newline, with the float fields grouped. -/
def atomBody (a : Atom) : List Char :=
  writeFixedInt (a.atomicNumber : Int) ++
    (([0, a.pos.x * ANGSTROM_TO_BOHR, a.pos.y * ANGSTROM_TO_BOHR,
       a.pos.z * ANGSTROM_TO_BOHR].map writeFixedFloat).flatten)

/-
Lemma layer: loop characterizations and a destructuring lemma for a
successful read, shared by several claim theorems below.
-/

lemma readVoxels_length (n : Nat) (s : IStream) : (readVoxels n s).1.length = n := by
  induction n generalizing s with
  | zero => simp [readVoxels]
  | succ n ih => simp [readVoxels, ih]

lemma readVoxels_failed (n : Nat) (s : IStream) (hf : s.failed = true) :
    readVoxels n s = (List.replicate n 0, s) := by
  induction n with
  | zero => simp [readVoxels]
  | succ n ih => simp [readVoxels, readQS, hf, ih, List.replicate_succ]

lemma readAtomsLoop_spec : ∀ (n : Nat) (acc acc2 : AtomsAcc),
    readAtomsLoop n acc = some acc2 →
    ∃ rws : List (Int × Vec3),
      rws.length = n ∧
      acc2.atoms = acc.atoms ++ rws.map mkDecodedAtom ∧
      acc2.raws = acc.raws ++ rws ∧
      acc2.tr = acc.tr ++ rws.map (fun r0 => Ev.addAtom (toUChar r0.1)) := by
  intro n
  induction n with
  | zero =>
    intro acc acc2 h
    simp only [readAtomsLoop, Option.some.injEq] at h
    exact ⟨[], rfl, by simp [h], by simp [h], by simp [h]⟩
  | succ n ih =>
    intro acc acc2 h
    rw [readAtomsLoop] at h
    cases hf : atomFieldsRaw (splitCh (trimmed (getlineS acc.s acc.line).1) chSpace) with
    | none => rw [hf] at h; exact absurd h (by simp)
    | some r0 =>
      rw [hf] at h
      obtain ⟨rws, hlen, hatoms, hraws, htr⟩ := ih _ _ h
      refine ⟨r0 :: rws, by simp [hlen], ?_, ?_, ?_⟩
      · simpa [List.append_assoc] using hatoms
      · simpa [List.append_assoc] using hraws
      · simpa [List.append_assoc] using htr

lemma readCubesLoop_spec : ∀ (n : Nat) (cmin : Vec3) (dim : Vec3i) (spacing : Vec3)
    (acc acc2 : CubesAcc),
    readCubesLoop cmin dim spacing n acc = some acc2 →
    ∃ ds : List (List ℚ),
      ds.length = n ∧
      acc2.cubes = acc.cubes ++ ds.map (fun d => Cube.mk cmin dim spacing d) ∧
      (∀ d ∈ ds, d.length = (dim.x * dim.y * dim.z).toNat) ∧
      acc2.tr = acc.tr ++ cubeEvs n := by
  intro n
  induction n with
  | zero =>
    intro cmin dim spacing acc acc2 h
    simp only [readCubesLoop, Option.some.injEq] at h
    exact ⟨[], rfl, by simp [h, cubeEvs], by simp, by simp [h, cubeEvs]⟩
  | succ n ih =>
    intro cmin dim spacing acc acc2 h
    rw [readCubesLoop] at h
    by_cases hv : (dim.x * dim.y * dim.z : Int) < 0
    · simp [hv] at h
    · simp only [hv, if_false] at h
      obtain ⟨ds, hlen, hcubes, hdlen, htr⟩ := ih cmin dim spacing _ _ h
      refine ⟨(readVoxels (dim.x * dim.y * dim.z).toNat acc.s).1 :: ds,
        by simp [hlen], ?_, ?_, ?_⟩
      · simpa [List.append_assoc] using hcubes
      · intro d hd
        rcases List.mem_cons.mp hd with h1 | h1
        · rw [h1]; exact readVoxels_length _ _
        · exact hdlen d h1
      · simpa [List.append_assoc, cubeEvs] using htr

lemma readNCubes_nonneg (nAtoms : Int) (s : IStream) (prev : List Char)
    (h : 0 ≤ nAtoms) :
    readNCubes nAtoms s prev = some (1, s, prev) := by
  simp [readNCubes, not_lt.mpr h]

lemma read_some_elim {input : List Char} {mol : Molecule} {res : DecRes}
    (h : read input mol = some res) :
    res.ok = true ∧
    ∃ (st : IStream) (ln : List Char) (acc1 : AtomsAcc)
      (nc : Nat × IStream × List Char) (acc2 : CubesAcc),
      readAtomsLoop res.hdr.nAtoms.natAbs ⟨st, ln, [], [], []⟩ = some acc1 ∧
      readNCubes res.hdr.nAtoms acc1.s acc1.line = some nc ∧
      nc.1 = res.hdr.nCubes ∧
      readCubesLoop (Vec3.scale BOHR_TO_ANGSTROM res.hdr.minRaw) res.hdr.dim
        (Vec3.scale BOHR_TO_ANGSTROM res.hdr.spacingRaw) res.hdr.nCubes
        ⟨nc.2.1, nc.2.2, [], acc1.tr ++ [Ev.perceiveBonds]⟩ = some acc2 ∧
      res.hdr.atomsRaw = acc1.raws ∧
      res.mol.atoms = mol.atoms ++ acc1.atoms ∧
      res.mol.cubes = mol.cubes ++ acc2.cubes ∧
      res.trace = acc2.tr := by
  unfold read at h
  simp only [bind, Option.bind_eq_some, Option.some.injEq] at h
  obtain ⟨a0, ha0, a1, ha1, a2, ha2, acc1, hacc1, nc, hnc, acc2, hacc2, hres⟩ := h
  subst hres
  refine ⟨rfl, _, _, acc1, nc, acc2, hacc1, hnc, rfl, hacc2, rfl, rfl, rfl, rfl⟩

lemma cubeEvs_mem : ∀ (n : Nat), ∀ e ∈ cubeEvs n, e = Ev.addCube ∨ e = Ev.setCubeData := by
  intro n
  induction n with
  | zero => simp [cubeEvs]
  | succ n ih =>
    intro e he
    rcases List.mem_cons.mp he with h1 | h1
    · exact Or.inl h1
    · rcases List.mem_cons.mp h1 with h2 | h2
      · exact Or.inr h2
      · exact ih e h2

lemma cubeEvs_count_addCube (n : Nat) : (cubeEvs n).count Ev.addCube = n := by
  induction n with
  | zero => simp [cubeEvs]
  | succ n ih => simp [cubeEvs, List.count_cons, ih]

lemma cubeEvs_count_perceive (n : Nat) : (cubeEvs n).count Ev.perceiveBonds = 0 := by
  induction n with
  | zero => simp [cubeEvs]
  | succ n ih => simp [cubeEvs, List.count_cons, ih]

/-
Claim theorems.
-/

/-- C1 (amended): the code has no error reporting at all.  read returns
true whenever it completes (source line 118 is its only return), and
once the stream has failed (malformed numeric token or end of stream)
every remaining voxel extraction silently substitutes the C++11 default
value 0 instead of aborting. -/
theorem c1_decode_never_fails :
    (∀ (input : List Char) (mol : Molecule) (res : DecRes),
        read input mol = some res → res.ok = true) ∧
    (∀ (n : Nat) (s : IStream), s.failed = true →
        readVoxels n s = (List.replicate n 0, s)) :=
  ⟨fun _ _ _ h => (read_some_elim h).1, fun n s hf => readVoxels_failed n s hf⟩

/-- C1 witness: the amended theorem applied at a concrete failed stream. -/
theorem c1_witness :
    readVoxels 3 ⟨[], true⟩ = (List.replicate 3 0, ⟨[], true⟩) :=
  c1_decode_never_fails.2 3 ⟨[], true⟩ rfl

unseal Rat.add Rat.mul Rat.inv in
/-- C1 counterexample: an input that ends before all required voxel
values are read (8 needed, 4 present) on which decode reports success
and substitutes the default value 0 for the missing samples, refuting
the claimed typed-error abort. -/
theorem c1_counterexample :
    (read demoTrunc emptyMol).map
        (fun r => (r.ok, r.mol.cubes.map (fun c => c.vdata)))
      = some (true, [[1, 2, 3, 4, 0, 0, 0, 0]]) := by
  decide

/-- C2: on every completed decode the number of atoms added is
abs(nAtoms) as read from the header, and the number of grids produced is
the multi-grid count field, which is 1 whenever nAtoms is
nonnegative. -/
theorem c2_atom_and_grid_counts (input : List Char) (mol : Molecule) (res : DecRes)
    (h : read input mol = some res) :
    res.mol.atoms.length = mol.atoms.length + res.hdr.nAtoms.natAbs ∧
    res.mol.cubes.length = mol.cubes.length + res.hdr.nCubes ∧
    (res.hdr.nAtoms < 0 ∨ res.hdr.nCubes = 1) := by
  obtain ⟨hok, st, ln, acc1, nc, acc2, hal, hnc, hnc1, hcl, hraws, hatoms, hcubes, htr⟩ :=
    read_some_elim h
  obtain ⟨rws, hrlen, ha2, _, _⟩ := readAtomsLoop_spec _ _ _ hal
  obtain ⟨ds, hdlen, hc2, _, _⟩ := readCubesLoop_spec _ _ _ _ _ _ hcl
  refine ⟨?_, ?_, ?_⟩
  · rw [hatoms, ha2]; simp [hrlen]
  · rw [hcubes, hc2]; simp [hdlen]
  · by_cases hneg : res.hdr.nAtoms < 0
    · exact Or.inl hneg
    · right
      have h1 := readNCubes_nonneg res.hdr.nAtoms acc1.s acc1.line (not_lt.mp hneg)
      rw [h1, Option.some.injEq] at hnc
      rw [← hnc1, ← hnc]

unseal Rat.add Rat.mul Rat.inv in
/-- C2 witness: the theorem applied to the concrete multi-cube input
(nAtoms = -1, nCubes = 2). -/
theorem c2_witness :
    ∃ res, read demoMulti emptyMol = some res ∧
      (res.mol.atoms.length = emptyMol.atoms.length + res.hdr.nAtoms.natAbs ∧
       res.mol.cubes.length = emptyMol.cubes.length + res.hdr.nCubes ∧
       (res.hdr.nAtoms < 0 ∨ res.hdr.nCubes = 1)) := by
  have h : (read demoMulti emptyMol).isSome = true := by decide
  obtain ⟨res, hres⟩ := Option.isSome_iff_exists.mp h
  exact ⟨res, hres, c2_atom_and_grid_counts _ _ _ hres⟩

/-- C3: encoding a molecule with no grids fails (returns false) having
emitted nothing: the cube-count check is the first statement of write
(source lines 135-136). -/
theorem c3_write_empty_grid_list (mol : Molecule) (h : mol.cubes = []) :
    write mol = ([], false) := by
  simp [write, h]

/-- C3 witness: the theorem applied at a concrete grid-less molecule. -/
theorem c3_witness : write ⟨("x").toList, [], []⟩ = ([], false) :=
  c3_write_empty_grid_list ⟨("x").toList, [], []⟩ rfl

/-- C4 (amended): decode performs no dimension validation; every grid it
produces simply has a buffer of (dim.x*dim.y*dim.z).toNat samples, so a
zero dimension is accepted with an empty buffer (a negative product is
the C++ resize of a wrapped size_t, an exception). -/
theorem c4_no_dimension_validation (input : List Char) (mol : Molecule) (res : DecRes)
    (h : read input mol = some res) :
    ∀ c ∈ res.mol.cubes.drop mol.cubes.length,
      c.vdata.length = (res.hdr.dim.x * res.hdr.dim.y * res.hdr.dim.z).toNat := by
  obtain ⟨_, st, ln, acc1, nc, acc2, hal, hnc, hnc1, hcl, _, _, hcubes, _⟩ :=
    read_some_elim h
  obtain ⟨ds, _, hc2, hdl, _⟩ := readCubesLoop_spec _ _ _ _ _ _ hcl
  intro c hc
  rw [hcubes, List.drop_left] at hc
  rw [hc2] at hc
  simp only [List.nil_append] at hc
  obtain ⟨d, hd, hcd⟩ := List.mem_map.mp hc
  rw [← hcd]
  exact hdl d hd

unseal Rat.add Rat.mul Rat.inv in
/-- C4 witness: the amended theorem applied to the zero-dimension
input. -/
theorem c4_witness :
    ∃ res, read demoZeroDim emptyMol = some res ∧
      ∀ c ∈ res.mol.cubes.drop emptyMol.cubes.length,
        c.vdata.length = (res.hdr.dim.x * res.hdr.dim.y * res.hdr.dim.z).toNat := by
  have h : (read demoZeroDim emptyMol).isSome = true := by decide
  obtain ⟨res, hres⟩ := Option.isSome_iff_exists.mp h
  exact ⟨res, hres, c4_no_dimension_validation _ _ _ hres⟩

unseal Rat.add Rat.mul Rat.inv in
/-- C4 counterexample: an input declaring dimension 0 on the first axis
decodes successfully (no InvalidDimensions failure) and produces a grid
with an empty buffer. -/
theorem c4_counterexample :
    (read demoZeroDim emptyMol).map
        (fun r => (r.ok, r.hdr.dim, r.mol.cubes.map (fun c => c.vdata.length)))
      = some (true, ⟨0, 3, 3⟩, [0]) := by
  decide

/-- C9: on every completed decode the trace contains bond perception
exactly once; everything before it is an addAtom event (abs(nAtoms) of
them) and everything after it is grid allocation or population, so bond
inference happens after all atoms are added and before any grid
exists. -/
theorem c9_perceive_bonds_once (input : List Char) (mol : Molecule) (res : DecRes)
    (h : read input mol = some res) :
    res.trace.count Ev.perceiveBonds = 1 ∧
    ∃ pre post,
      res.trace = pre ++ Ev.perceiveBonds :: post ∧
      pre.length = res.hdr.nAtoms.natAbs ∧
      (∀ e ∈ pre, ∃ z, e = Ev.addAtom z) ∧
      (∀ e ∈ post, e = Ev.addCube ∨ e = Ev.setCubeData) ∧
      post.count Ev.addCube = res.hdr.nCubes := by
  obtain ⟨_, st, ln, acc1, nc, acc2, hal, hnc, hnc1, hcl, _, _, _, htr⟩ :=
    read_some_elim h
  obtain ⟨rws, hrlen, _, _, htr1⟩ := readAtomsLoop_spec _ _ _ hal
  obtain ⟨ds, _, _, _, htr2⟩ := readCubesLoop_spec _ _ _ _ _ _ hcl
  simp only [List.nil_append] at htr1
  have hshape : res.trace =
      rws.map (fun r0 => Ev.addAtom (toUChar r0.1)) ++
        Ev.perceiveBonds :: cubeEvs res.hdr.nCubes := by
    rw [htr, htr2, htr1]
    simp [List.append_assoc]
  have hpre0 : (rws.map (fun r0 => Ev.addAtom (toUChar r0.1))).count Ev.perceiveBonds = 0 := by
    refine List.count_eq_zero.mpr ?_
    intro hmem
    obtain ⟨r0, _, habs⟩ := List.mem_map.mp hmem
    exact Ev.noConfusion habs
  refine ⟨?_, rws.map (fun r0 => Ev.addAtom (toUChar r0.1)), cubeEvs res.hdr.nCubes,
    hshape, by simp [hrlen], ?_, cubeEvs_mem _, cubeEvs_count_addCube _⟩
  · rw [hshape]
    simp [List.count_append, List.count_cons, hpre0, cubeEvs_count_perceive]
  · intro e he
    obtain ⟨r0, _, hr0⟩ := List.mem_map.mp he
    exact ⟨toUChar r0.1, hr0.symm⟩

unseal Rat.add Rat.mul Rat.inv in
/-- C9 witness: the theorem applied to the concrete two-atom input. -/
theorem c9_witness :
    ∃ res, read demoInput emptyMol = some res ∧
      (res.trace.count Ev.perceiveBonds = 1 ∧
       ∃ pre post,
         res.trace = pre ++ Ev.perceiveBonds :: post ∧
         pre.length = res.hdr.nAtoms.natAbs ∧
         (∀ e ∈ pre, ∃ z, e = Ev.addAtom z) ∧
         (∀ e ∈ post, e = Ev.addCube ∨ e = Ev.setCubeData) ∧
         post.count Ev.addCube = res.hdr.nCubes) := by
  have h : (read demoInput emptyMol).isSome = true := by decide
  obtain ⟨res, hres⟩ := Option.isSome_iff_exists.mp h
  exact ⟨res, hres, c9_perceive_bonds_once _ _ _ hres⟩

unseal Rat.add Rat.mul Rat.inv in
/-- C6: each axis line is consumed by getline, trimmed and split; the
parse then reads exactly field 0 (the dimension) and field i+1 (the
diagonal spacing component), ignoring every other field, and the
concrete input with non-zero off-diagonal components still decodes
successfully with only the diagonal spacing values. -/
theorem c6_axis_parse :
    (∀ (i : Nat) (s : IStream) (prev : List Char),
        readAxisLine i s prev =
          (axisFromFields i (splitCh (trimmed (getlineS s prev).1) chSpace)).map
            (fun d => ((getlineS s prev).2, (getlineS s prev).1, d.1, d.2))) ∧
    (∀ (i : Nat) (fields : List (List Char)),
        axisFromFields i fields =
          (fields.get? 0).bind (fun f0 =>
            (fields.get? (i + 1)).map
              (fun fi => (lexicalCastInt f0, lexicalCastQ fi)))) ∧
    (read demoOffDiag emptyMol).map (fun r => (r.hdr.dim, r.hdr.spacingRaw, r.ok))
      = some (⟨2, 2, 2⟩, ⟨1 / 2, 1 / 2, 1 / 2⟩, true) := by
  refine ⟨?_, ?_, by decide⟩
  · intro i s prev
    cases h : axisFromFields i (splitCh (trimmed (getlineS s prev).1) chSpace) with
    | none => simp [readAxisLine, h]
    | some d => simp [readAxisLine, h]
  · intro i fields
    simp only [List.get?_eq_getElem?]
    cases h0 : fields[0]? with
    | none => simp [axisFromFields, List.get?_eq_getElem?, h0]
    | some f0 =>
      cases hi : fields[i + 1]? with
      | none => simp [axisFromFields, List.get?_eq_getElem?, h0, hi]
      | some fi => simp [axisFromFields, List.get?_eq_getElem?, h0, hi]

/-- C7: decode stores every atom position, the grid origin and the grid
spacing multiplied by BOHR_TO_ANGSTROM exactly once, leaves dimension
counts and atomic numbers unconverted; encode multiplies the same three
kinds of quantities by the inverse factor ANGSTROM_TO_BOHR and nothing
else (dimensions and atomic numbers are emitted as parsed). -/
theorem c7_unit_conversion (input : List Char) (mol : Molecule) (res : DecRes)
    (h : read input mol = some res) :
    BOHR_TO_ANGSTROM * ANGSTROM_TO_BOHR = 1 ∧
    res.mol.atoms.drop mol.atoms.length
      = res.hdr.atomsRaw.map
          (fun rw => Atom.mk (toUChar rw.1) (Vec3.scale BOHR_TO_ANGSTROM rw.2)) ∧
    (∀ c ∈ res.mol.cubes.drop mol.cubes.length,
        c.cmin = Vec3.scale BOHR_TO_ANGSTROM res.hdr.minRaw ∧
        c.spacing = Vec3.scale BOHR_TO_ANGSTROM res.hdr.spacingRaw ∧
        c.dim = res.hdr.dim) ∧
    (∀ a : Atom, atomLine a =
        writeFixedInt (a.atomicNumber : Int) ++ writeFixedFloat 0 ++
          writeFixedFloat (a.pos.x * ANGSTROM_TO_BOHR) ++
          writeFixedFloat (a.pos.y * ANGSTROM_TO_BOHR) ++
          writeFixedFloat (a.pos.z * ANGSTROM_TO_BOHR) ++ nlC) ∧
    (∀ (m : Molecule) (cb : Cube) (rest : List Cube), m.cubes = cb :: rest →
        (write m).1 =
          banner ++ nlC ++ (if m.name.length ≠ 0 then m.name else []) ++ nlC ++
            writeFixedInt (m.atoms.length : Int) ++
            writeFixedFloat (ANGSTROM_TO_BOHR * cb.cmin.x) ++
            writeFixedFloat (ANGSTROM_TO_BOHR * cb.cmin.y) ++
            writeFixedFloat (ANGSTROM_TO_BOHR * cb.cmin.z) ++
            writeFixedInt 1 ++ nlC ++
            writeFixedInt cb.dim.x ++
            writeFixedFloat (ANGSTROM_TO_BOHR * cb.spacing.x) ++
            writeFixedFloat 0 ++ writeFixedFloat 0 ++ nlC ++
            writeFixedInt cb.dim.y ++ writeFixedFloat 0 ++
            writeFixedFloat (ANGSTROM_TO_BOHR * cb.spacing.y) ++
            writeFixedFloat 0 ++ nlC ++
            writeFixedInt cb.dim.z ++ writeFixedFloat 0 ++ writeFixedFloat 0 ++
            writeFixedFloat (ANGSTROM_TO_BOHR * cb.spacing.z) ++ nlC ++
            (m.atoms.map atomLine).flatten ++
            writeValues cb.vdata) := by
  obtain ⟨_, st, ln, acc1, nc, acc2, hal, hnc, hnc1, hcl, hraws, hatoms, hcubes, _⟩ :=
    read_some_elim h
  obtain ⟨rws, _, ha2, hr2, _⟩ := readAtomsLoop_spec _ _ _ hal
  obtain ⟨ds, _, hc2, _, _⟩ := readCubesLoop_spec _ _ _ _ _ _ hcl
  refine ⟨?_, ?_, ?_, fun a => rfl, ?_⟩
  · norm_num [BOHR_TO_ANGSTROM, ANGSTROM_TO_BOHR]
  · rw [hatoms, List.drop_left, ha2, hraws, hr2]
    simp [mkDecodedAtom]
  · intro c hc
    rw [hcubes, List.drop_left, hc2] at hc
    simp only [List.nil_append] at hc
    obtain ⟨d, _, hcd⟩ := List.mem_map.mp hc
    rw [← hcd]
    exact ⟨rfl, rfl, rfl⟩
  · intro m cb rest hm
    simp [write, hm, Vec3.scale]

unseal Rat.add Rat.mul Rat.inv in
/-- C7 witness: the theorem applied to the concrete two-atom input. -/
theorem c7_witness :
    ∃ res, read demoInput emptyMol = some res ∧
      BOHR_TO_ANGSTROM * ANGSTROM_TO_BOHR = 1 ∧
      res.mol.atoms.drop emptyMol.atoms.length
        = res.hdr.atomsRaw.map
            (fun rw => Atom.mk (toUChar rw.1) (Vec3.scale BOHR_TO_ANGSTROM rw.2)) := by
  have h : (read demoInput emptyMol).isSome = true := by decide
  obtain ⟨res, hres⟩ := Option.isSome_iff_exists.mp h
  have h2 := c7_unit_conversion _ _ _ hres
  exact ⟨res, hres, h2.1, h2.2.1⟩

lemma writeValuesAux_mod (vs : List ℚ) : ∀ (i j : Nat), i % 6 = j % 6 →
    writeValuesAux i vs = writeValuesAux j vs := by
  induction vs with
  | nil => intro i j _; rfl
  | cons v vs ih =>
    intro i j hij
    have h1 : (i + 1) % 6 = (j + 1) % 6 := by omega
    simp only [writeValuesAux, hij, ih (i + 1) (j + 1) h1]

lemma writeValues_eq_spec_aux : ∀ (f : Nat) (vs : List ℚ), vs.length ≤ f →
    writeValuesAux 0 vs = writeValuesSpecAux f vs := by
  intro f
  induction f with
  | zero =>
    intro vs hl
    rw [List.length_eq_zero.mp (Nat.le_zero.mp hl)]
    rfl
  | succ f ih =>
    intro vs hl
    rcases vs with _ | ⟨a, _ | ⟨b, _ | ⟨c, _ | ⟨d, _ | ⟨e, _ | ⟨g, rest⟩⟩⟩⟩⟩⟩
    · rfl
    · simp [writeValuesAux, writeValuesSpecAux]
    · simp [writeValuesAux, writeValuesSpecAux, List.append_assoc]
    · simp [writeValuesAux, writeValuesSpecAux, List.append_assoc]
    · simp [writeValuesAux, writeValuesSpecAux, List.append_assoc]
    · simp [writeValuesAux, writeValuesSpecAux, List.append_assoc]
    · have h6 : writeValuesAux 6 rest = writeValuesAux 0 rest :=
        writeValuesAux_mod rest 6 0 rfl
      have hr : rest.length ≤ f := by
        simp only [List.length_cons] at hl
        omega
      simp only [writeValuesAux, writeValuesSpecAux, List.take_cons, List.drop_succ_cons,
        List.length_cons, h6, ih rest hr]
      simp [List.append_assoc]

/-- C8: the voxel block is exactly the buffer rendered six values per
line in buffer order, each value right-justified scientific with width
13 and 5 digits (writeSciFloat), a newline after every full group of
six, and no newline after a trailing partial group. -/
theorem c8_voxel_layout (vs : List ℚ) : writeValues vs = writeValuesSpec vs :=
  writeValues_eq_spec_aux vs.length vs le_rfl

/-
Digit rendering: foundations for the encode-decode round-trip lemmas.
-/

lemma natCharsAux_congr : ∀ (f : Nat), ∀ (g n : Nat), n < 10 ^ f → n < 10 ^ g →
    0 < f → 0 < g → natCharsAux f n = natCharsAux g n := by
  intro f
  induction f with
  | zero => intro g n _ _ hf _; exact absurd hf (by omega)
  | succ f ih =>
    intro g n hnf hng hf hg
    cases g with
    | zero => exact absurd hg (by omega)
    | succ g =>
      by_cases h10 : n < 10
      · simp [natCharsAux, h10]
      · have hf' : 0 < f := by
          rcases Nat.eq_zero_or_pos f with h0 | h0
          · subst h0; simp at hnf; omega
          · exact h0
        have hg' : 0 < g := by
          rcases Nat.eq_zero_or_pos g with h0 | h0
          · subst h0; simp at hng; omega
          · exact h0
        have hdf : n / 10 < 10 ^ f := by
          rw [Nat.div_lt_iff_lt_mul (by norm_num)]
          calc n < 10 ^ (f + 1) := hnf
            _ = 10 ^ f * 10 := by ring
        have hdg : n / 10 < 10 ^ g := by
          rw [Nat.div_lt_iff_lt_mul (by norm_num)]
          calc n < 10 ^ (g + 1) := hng
            _ = 10 ^ g * 10 := by ring
        simp only [natCharsAux, h10, if_false, ih g (n / 10) hdf hdg hf' hg']

lemma natChars_eq_aux (f n : Nat) (h : n < 10 ^ f) (hf : 0 < f) :
    natChars n = natCharsAux f n := by
  have h1 : n < 10 ^ (n + 1) := by
    calc n < 10 ^ n := Nat.lt_pow_self (by norm_num) n
      _ ≤ 10 ^ (n + 1) := Nat.pow_le_pow_right (by norm_num) (Nat.le_succ n)
  exact natCharsAux_congr (n + 1) f n h1 h (Nat.succ_pos n) hf

lemma natChars_small (n : Nat) (h : n < 10) : natChars n = [Char.ofNat (48 + n)] := by
  simp [natChars, natCharsAux, h]

lemma natChars_step (n : Nat) (h : 10 ≤ n) :
    natChars n = natChars (n / 10) ++ [Char.ofNat (48 + n % 10)] := by
  have h1 : natChars n = natCharsAux (n + 1) n := rfl
  rw [h1, natCharsAux, if_neg (by omega)]
  have h2 : natChars (n / 10) = natCharsAux n (n / 10) := by
    refine natChars_eq_aux n (n / 10) ?_ (by omega)
    calc n / 10 ≤ n := Nat.div_le_self n 10
      _ < 10 ^ n := Nat.lt_pow_self (by norm_num) n
  rw [h2]

lemma digitChar_facts (d : Nat) (h : d < 10) :
    (Char.ofNat (48 + d)).isDigit = true ∧ (Char.ofNat (48 + d)).toNat = 48 + d ∧
    Char.ofNat (48 + d) ≠ chMinus ∧ Char.ofNat (48 + d) ≠ chPlus ∧
    Char.ofNat (48 + d) ≠ chDot ∧ Char.ofNat (48 + d) ≠ chE ∧
    Char.ofNat (48 + d) ≠ chEUp ∧ Char.ofNat (48 + d) ≠ chNl ∧
    cppIsSpace (Char.ofNat (48 + d)) = false ∧ trimIsWs (Char.ofNat (48 + d)) = false := by
  interval_cases d <;> decide

lemma natChars_shape (n : Nat) : ∀ c ∈ natChars n, ∃ d, d < 10 ∧ c = Char.ofNat (48 + d) := by
  induction n using Nat.strong_induction_on with
  | _ n ih =>
    by_cases h10 : n < 10
    · rw [natChars_small n h10]
      intro c hc
      rw [List.mem_singleton] at hc
      exact ⟨n, h10, hc⟩
    · rw [natChars_step n (by omega)]
      intro c hc
      rcases List.mem_append.mp hc with h1 | h1
      · exact ih (n / 10) (by omega) c h1
      · rw [List.mem_singleton] at h1
        exact ⟨n % 10, Nat.mod_lt n (by norm_num), h1⟩

lemma natChars_digits (n : Nat) : ∀ c ∈ natChars n, c.isDigit = true := by
  intro c hc
  obtain ⟨d, hd, hcd⟩ := natChars_shape n c hc
  rw [hcd]
  exact (digitChar_facts d hd).1

lemma natChars_ne_nil (n : Nat) : natChars n ≠ [] := by
  by_cases h10 : n < 10
  · rw [natChars_small n h10]; simp
  · rw [natChars_step n (by omega)]; simp

lemma natOfDigits_snoc (ds : List Char) (c : Char) :
    natOfDigits (ds ++ [c]) = 10 * natOfDigits ds + (c.toNat - 48) := by
  simp [natOfDigits, List.foldl_append]

lemma natOfDigits_natChars (n : Nat) : natOfDigits (natChars n) = n := by
  induction n using Nat.strong_induction_on with
  | _ n ih =>
    by_cases h10 : n < 10
    · rw [natChars_small n h10]
      have := (digitChar_facts n h10).2.1
      simp [natOfDigits, this]
    · rw [natChars_step n (by omega), natOfDigits_snoc, ih (n / 10) (by omega)]
      have h1 := (digitChar_facts (n % 10) (Nat.mod_lt n (by norm_num))).2.1
      rw [h1]
      omega

lemma natChars_length_bounds (n : Nat) (h : 1 ≤ n) :
    10 ^ ((natChars n).length - 1) ≤ n ∧ n < 10 ^ (natChars n).length := by
  induction n using Nat.strong_induction_on with
  | _ n ih =>
    by_cases h10 : n < 10
    · rw [natChars_small n h10]
      simpa using ⟨h, h10⟩
    · have hd : 1 ≤ n / 10 := by omega
      obtain ⟨hlo, hhi⟩ := ih (n / 10) (by omega) hd
      rw [natChars_step n (by omega)]
      have hL : 1 ≤ (natChars (n / 10)).length :=
        List.length_pos.mpr (natChars_ne_nil (n / 10))
      constructor
      · simp only [List.length_append, List.length_singleton]
        have : (natChars (n / 10)).length + 1 - 1 = ((natChars (n / 10)).length - 1) + 1 := by
          omega
        rw [this, pow_succ]
        calc 10 ^ ((natChars (n / 10)).length - 1) * 10 ≤ (n / 10) * 10 :=
              Nat.mul_le_mul_right 10 hlo
          _ ≤ n := by omega
      · simp only [List.length_append, List.length_singleton, pow_succ]
        calc n < (n / 10 + 1) * 10 := by omega
          _ ≤ 10 ^ (natChars (n / 10)).length * 10 := Nat.mul_le_mul_right 10 hhi

lemma natChars_zero : natChars 0 = [chZero] := by decide

lemma natChars_length_le (n k : Nat) (h : n < 10 ^ k) (hk : 0 < k) :
    (natChars n).length ≤ k := by
  rcases Nat.eq_zero_or_pos n with h0 | h0
  · subst h0; rw [natChars_zero]; simpa using hk
  · obtain ⟨_, hhi⟩ := natChars_length_bounds n h0
    by_contra hgt
    push_neg at hgt
    have : 10 ^ k ≤ 10 ^ ((natChars n).length - 1) :=
      Nat.pow_le_pow_right (by norm_num) (by omega)
    have := (natChars_length_bounds n h0).1
    omega

/-
Token-level parsing of rendered fields.
-/

lemma takeWhile_append_all {p : Char → Bool} :
    ∀ (xs ys : List Char), (∀ c ∈ xs, p c = true) →
      (xs ++ ys).takeWhile p = xs ++ ys.takeWhile p := by
  intro xs ys h
  induction xs with
  | nil => rfl
  | cons c t ih =>
    have hc : p c = true := h c (List.mem_cons_self c t)
    simp only [List.cons_append, List.takeWhile_cons, hc, if_true]
    rw [ih (fun d hd => h d (List.mem_cons_of_mem c hd))]

lemma dropWhile_append_all {p : Char → Bool} :
    ∀ (xs ys : List Char), (∀ c ∈ xs, p c = true) →
      (xs ++ ys).dropWhile p = ys.dropWhile p := by
  intro xs ys h
  induction xs with
  | nil => rfl
  | cons c t ih =>
    have hc : p c = true := h c (List.mem_cons_self c t)
    simp only [List.cons_append, List.dropWhile_cons, hc, if_true]
    exact ih (fun d hd => h d (List.mem_cons_of_mem c hd))

lemma dropWhile_eq_self_of_takeWhile_nil {p : Char → Bool} (cs : List Char)
    (h : cs.takeWhile p = []) : cs.dropWhile p = cs := by
  cases cs with
  | nil => rfl
  | cons c t =>
    rw [List.takeWhile_cons] at h
    by_cases hc : p c = true
    · rw [if_pos hc] at h; exact absurd h (by simp)
    · rw [List.dropWhile_cons, if_neg hc]

lemma parseNatTok_natChars (n : Nat) (rest : List Char)
    (hrest : rest.takeWhile Char.isDigit = []) :
    parseNatTok (natChars n ++ rest) = some (n, rest) := by
  unfold parseNatTok
  rw [takeWhile_append_all _ _ (natChars_digits n),
    dropWhile_append_all _ _ (natChars_digits n), hrest,
    dropWhile_eq_self_of_takeWhile_nil rest hrest, List.append_nil]
  rw [if_neg (by simp [natChars_ne_nil n]), natOfDigits_natChars]

lemma natChars_head_digit (n : Nat) :
    ∃ d t, d < 10 ∧ natChars n = Char.ofNat (48 + d) :: t := by
  cases h : natChars n with
  | nil => exact absurd h (natChars_ne_nil n)
  | cons c t =>
    obtain ⟨d, hd, hcd⟩ := natChars_shape n c (by rw [h]; exact List.mem_cons_self c t)
    exact ⟨d, t, hd, by rw [hcd]⟩

lemma parseIntTok_natChars (n : Nat) (rest : List Char)
    (hrest : rest.takeWhile Char.isDigit = []) :
    parseIntTok (natChars n ++ rest) = some ((n : Int), rest) := by
  obtain ⟨d, t, hd, hn⟩ := natChars_head_digit n
  obtain ⟨_, _, hm, hp, _⟩ := digitChar_facts d hd
  rw [hn, List.cons_append, parseIntTok,
    if_neg (by simp [hm]), if_neg (by simp [hp]), ← List.cons_append, ← hn,
    parseNatTok_natChars n rest hrest]
  rfl

lemma parseExpPart_absent (rest : List Char)
    (he : ∀ c, rest.head? = some c → (c == chE || c == chEUp) = false) :
    parseExpPart rest = some (0, rest) := by
  cases rest with
  | nil => rfl
  | cons c t =>
    rw [parseExpPart, if_neg ?_]
    intro h
    exact absurd h (by simp [he c rfl])

lemma natOfDigits_acc (ds : List Char) :
    ∀ (a : Nat), ds.foldl (fun b c => 10 * b + (c.toNat - 48)) a
      = a * 10 ^ ds.length + natOfDigits ds := by
  induction ds with
  | nil => intro a; simp [natOfDigits]
  | cons c t ih =>
    intro a
    have h1 : (c :: t).foldl (fun b c2 => 10 * b + (c2.toNat - 48)) a
        = t.foldl (fun b c2 => 10 * b + (c2.toNat - 48)) (10 * a + (c.toNat - 48)) := rfl
    have h2 : natOfDigits (c :: t)
        = (c.toNat - 48) * 10 ^ t.length + natOfDigits t := by
      have h3 : natOfDigits (c :: t)
          = t.foldl (fun b c2 => 10 * b + (c2.toNat - 48)) (10 * 0 + (c.toNat - 48)) := rfl
      rw [h3, ih (10 * 0 + (c.toNat - 48))]
      ring
    rw [h1, ih (10 * a + (c.toNat - 48)), h2, List.length_cons]
    ring

lemma natOfDigits_pad_zeros (k : Nat) (ds : List Char) :
    natOfDigits (padLeftWith chZero k ds) = natOfDigits ds := by
  unfold padLeftWith
  induction (k - ds.length) with
  | zero => rfl
  | succ m ih =>
    rw [List.replicate_succ, List.cons_append]
    simpa [natOfDigits, chZero] using ih

lemma padLeft_all {c0 : Char} {p : Char → Bool} (k : Nat) (ds : List Char)
    (hc : p c0 = true) (hds : ∀ c ∈ ds, p c = true) :
    ∀ c ∈ padLeftWith c0 k ds, p c = true := by
  intro c hc2
  rcases List.mem_append.mp hc2 with h1 | h1
  · rw [List.eq_of_mem_replicate h1]; exact hc
  · exact hds c h1

lemma padLeft_length {c0 : Char} (k : Nat) (ds : List Char) (h : ds.length ≤ k) :
    (padLeftWith c0 k ds).length = k := by
  simp [padLeftWith]
  omega

lemma parseFracTok_decimal (p ip fp : Nat) (rest : List Char) (hp : 0 < p)
    (hfp : fp < 10 ^ p)
    (htw : rest.takeWhile Char.isDigit = [])
    (he : ∀ c, rest.head? = some c → (c == chE || c == chEUp) = false) :
    parseFracTok (natChars ip ++ (chDot :: (padLeftWith chZero p (natChars fp) ++ rest)))
      = some ((ip : ℚ) + (fp : ℚ) / ((10 ^ p : Nat) : ℚ), rest) := by
  have hdig : ∀ c ∈ padLeftWith chZero p (natChars fp), c.isDigit = true :=
    padLeft_all p (natChars fp) (by decide) (natChars_digits fp)
  have hlen : (padLeftWith chZero p (natChars fp)).length = p :=
    padLeft_length p (natChars fp) (natChars_length_le fp p hfp hp)
  have hdot : Char.isDigit chDot = false := by decide
  have htake : List.takeWhile Char.isDigit
      (natChars ip ++ (chDot :: (padLeftWith chZero p (natChars fp) ++ rest)))
      = natChars ip := by
    rw [takeWhile_append_all _ _ (natChars_digits ip)]
    simp [List.takeWhile_cons, hdot]
  have hdrop : List.dropWhile Char.isDigit
      (natChars ip ++ (chDot :: (padLeftWith chZero p (natChars fp) ++ rest)))
      = chDot :: (padLeftWith chZero p (natChars fp) ++ rest) := by
    rw [dropWhile_append_all _ _ (natChars_digits ip)]
    simp [List.dropWhile_cons, hdot]
  have htake2 : List.takeWhile Char.isDigit (padLeftWith chZero p (natChars fp) ++ rest)
      = padLeftWith chZero p (natChars fp) := by
    rw [takeWhile_append_all _ _ hdig, htw, List.append_nil]
  have hdrop2 : List.dropWhile Char.isDigit (padLeftWith chZero p (natChars fp) ++ rest)
      = rest := by
    rw [dropWhile_append_all _ _ hdig, dropWhile_eq_self_of_takeWhile_nil rest htw]
  have hexp := parseExpPart_absent rest he
  have hne : (natChars ip).isEmpty = false := by
    obtain ⟨d, t, _, hn⟩ := natChars_head_digit ip
    rw [hn]
    rfl
  have h1 : powTenZ 0 = 1 := by norm_num [powTenZ]
  simp only [parseFracTok, htake, hdrop, htake2, hdrop2, hexp, hne, hlen,
    natOfDigits_pad_zeros, natOfDigits_natChars, beq_self_eq_true, if_true,
    Bool.false_and, Bool.false_eq_true, if_false, h1, mul_one]

lemma parseFracTok_general (p ip fp : Nat) (tail rest : List Char) (ev : Int)
    (hp : 0 < p) (hfp : fp < 10 ^ p)
    (hexp : parseExpPart tail = some (ev, rest))
    (htail : tail.takeWhile Char.isDigit = []) :
    parseFracTok (natChars ip ++ (chDot :: (padLeftWith chZero p (natChars fp) ++ tail)))
      = some (((ip : ℚ) + (fp : ℚ) / ((10 ^ p : Nat) : ℚ)) * powTenZ ev, rest) := by
  have hdig : ∀ c ∈ padLeftWith chZero p (natChars fp), c.isDigit = true :=
    padLeft_all p (natChars fp) (by decide) (natChars_digits fp)
  have hlen : (padLeftWith chZero p (natChars fp)).length = p :=
    padLeft_length p (natChars fp) (natChars_length_le fp p hfp hp)
  have hdot : Char.isDigit chDot = false := by decide
  have htake : List.takeWhile Char.isDigit
      (natChars ip ++ (chDot :: (padLeftWith chZero p (natChars fp) ++ tail)))
      = natChars ip := by
    rw [takeWhile_append_all _ _ (natChars_digits ip)]
    simp [List.takeWhile_cons, hdot]
  have hdrop : List.dropWhile Char.isDigit
      (natChars ip ++ (chDot :: (padLeftWith chZero p (natChars fp) ++ tail)))
      = chDot :: (padLeftWith chZero p (natChars fp) ++ tail) := by
    rw [dropWhile_append_all _ _ (natChars_digits ip)]
    simp [List.dropWhile_cons, hdot]
  have htake2 : List.takeWhile Char.isDigit (padLeftWith chZero p (natChars fp) ++ tail)
      = padLeftWith chZero p (natChars fp) := by
    rw [takeWhile_append_all _ _ hdig, htail, List.append_nil]
  have hdrop2 : List.dropWhile Char.isDigit (padLeftWith chZero p (natChars fp) ++ tail)
      = tail := by
    rw [dropWhile_append_all _ _ hdig, dropWhile_eq_self_of_takeWhile_nil tail htail]
  have hne : (natChars ip).isEmpty = false := by
    obtain ⟨d, t, _, hn⟩ := natChars_head_digit ip
    rw [hn]
    rfl
  simp only [parseFracTok, htake, hdrop, htake2, hdrop2, hexp, hne, hlen,
    natOfDigits_pad_zeros, natOfDigits_natChars, beq_self_eq_true, if_true,
    Bool.false_and, Bool.false_eq_true, if_false]

lemma parseNatTok_pad2 (em : Nat) (rest : List Char)
    (htw : rest.takeWhile Char.isDigit = []) :
    parseNatTok (padLeftWith chZero 2 (natChars em) ++ rest) = some (em, rest) := by
  have hdig : ∀ c ∈ padLeftWith chZero 2 (natChars em), c.isDigit = true :=
    padLeft_all 2 (natChars em) (by decide) (natChars_digits em)
  have hne2 : padLeftWith chZero 2 (natChars em) ≠ [] := by
    intro habs
    have := congrArg List.length habs
    simp [padLeftWith] at this
    exact natChars_ne_nil em this.2
  unfold parseNatTok
  rw [takeWhile_append_all _ _ hdig, dropWhile_append_all _ _ hdig, htw,
    dropWhile_eq_self_of_takeWhile_nil rest htw, List.append_nil]
  rw [if_neg (by simp [hne2]), natOfDigits_pad_zeros, natOfDigits_natChars]

lemma parseIntTok_signed_pad (neg : Bool) (em : Nat) (rest : List Char)
    (htw : rest.takeWhile Char.isDigit = []) :
    parseIntTok ((if neg then chMinus else chPlus) ::
        (padLeftWith chZero 2 (natChars em) ++ rest))
      = some (if neg then -(em : Int) else (em : Int), rest) := by
  cases neg with
  | true =>
    rw [if_pos rfl, parseIntTok, if_pos (by rfl), parseNatTok_pad2 em rest htw]
    rfl
  | false =>
    rw [if_neg (by simp), parseIntTok, if_neg (by decide), if_pos (by rfl),
      parseNatTok_pad2 em rest htw]
    rfl

lemma decimal_recompose (n p : Nat) :
    ((n / 10 ^ p : Nat) : ℚ) + ((n % 10 ^ p : Nat) : ℚ) / ((10 ^ p : Nat) : ℚ)
      = (n : ℚ) / ((10 ^ p : Nat) : ℚ) := by
  have hp : ((10 ^ p : Nat) : ℚ) ≠ 0 := by positivity
  field_simp
  norm_cast
  exact Nat.div_add_mod' n (10 ^ p)

lemma parseQTok_digit_head (cs : List Char)
    (h : ∃ d t, d < 10 ∧ cs = Char.ofNat (48 + d) :: t) :
    parseQTok cs = parseFracTok cs := by
  obtain ⟨d, t, hd, hcs⟩ := h
  obtain ⟨_, _, hm, hp, _⟩ := digitChar_facts d hd
  rw [hcs, parseQTok, if_neg (by simp [hm]), if_neg (by simp [hp])]

lemma parseQTok_fixContent (x : ℚ) (rest : List Char)
    (htw : rest.takeWhile Char.isDigit = [])
    (he : ∀ c, rest.head? = some c → (c == chE || c == chEUp) = false) :
    parseQTok (fixContent x ++ rest) = some (fixVal x, rest) := by
  set n := rndHalf (qAbs x * 1000000) with hn
  have hfp : n % 1000000 < 10 ^ 6 := by
    have := Nat.mod_lt n (show 0 < 1000000 by norm_num)
    simpa using this
  have hexp := parseExpPart_absent rest he
  have hfrac := parseFracTok_general 6 (n / 1000000) (n % 1000000) rest rest 0
    (by norm_num) hfp hexp htw
  have hval : (((n / 1000000 : Nat) : ℚ) + ((n % 1000000 : Nat) : ℚ) / ((10 ^ 6 : Nat) : ℚ))
      * powTenZ 0 = (n : ℚ) / 1000000 := by
    have h0 : powTenZ 0 = 1 := by norm_num [powTenZ]
    have h1 := decimal_recompose n 6
    norm_num at h1 ⊢
    rw [h0, mul_one]
    convert h1 using 2
  by_cases hneg : x < 0
  · have hshape : fixContent x ++ rest
        = chMinus :: (natChars (n / 1000000)
            ++ (chDot :: (padLeftWith chZero 6 (natChars (n % 1000000)) ++ rest))) := by
      simp [fixContent, hneg, ← hn, List.append_assoc]
    rw [hshape, parseQTok, if_pos (by rfl), hfrac, hval]
    simp [fixVal, hneg, ← hn]
  · have hshape : fixContent x ++ rest
        = natChars (n / 1000000)
            ++ (chDot :: (padLeftWith chZero 6 (natChars (n % 1000000)) ++ rest)) := by
      simp [fixContent, hneg, ← hn, List.append_assoc]
    rw [hshape, parseQTok_digit_head _ ?_, hfrac, hval]
    · simp [fixVal, hneg, ← hn]
    · obtain ⟨d, t, hd, hshape2⟩ := natChars_head_digit (n / 1000000)
      exact ⟨d, t ++ (chDot :: (padLeftWith chZero 6 (natChars (n % 1000000)) ++ rest)), hd,
        by rw [hshape2]; rfl⟩

lemma parseQTok_sci_shape (negm : Bool) (sc em : Nat) (ene : Bool) (rest : List Char)
    (htw : rest.takeWhile Char.isDigit = []) :
    parseQTok ((if negm then [chMinus] else []) ++ natChars (sc / 100000) ++ [chDot] ++
        padLeftWith chZero 5 (natChars (sc % 100000)) ++ [chE] ++
        (if ene then [chMinus] else [chPlus]) ++ padLeftWith chZero 2 (natChars em) ++ rest)
      = some ((if negm then -1 else 1) *
          (((sc : ℚ) / 100000) * powTenZ (if ene then -(em : Int) else (em : Int))), rest) := by
  have hfp : sc % 100000 < 10 ^ 5 := by
    have := Nat.mod_lt sc (show 0 < 100000 by norm_num)
    simpa using this
  have htail : (chE :: ((if ene then chMinus else chPlus) ::
      (padLeftWith chZero 2 (natChars em) ++ rest))).takeWhile Char.isDigit = [] := by
    simp [List.takeWhile_cons, show Char.isDigit chE = false by decide]
  have hexp : parseExpPart (chE :: ((if ene then chMinus else chPlus) ::
      (padLeftWith chZero 2 (natChars em) ++ rest)))
      = some (if ene then -(em : Int) else (em : Int), rest) := by
    rw [parseExpPart, if_pos (by rfl), parseIntTok_signed_pad ene em rest htw]
  have hfrac := parseFracTok_general 5 (sc / 100000) (sc % 100000)
    (chE :: ((if ene then chMinus else chPlus) ::
      (padLeftWith chZero 2 (natChars em) ++ rest))) rest
    (if ene then -(em : Int) else (em : Int)) (by norm_num) hfp hexp htail
  have hval : (((sc / 100000 : Nat) : ℚ) + ((sc % 100000 : Nat) : ℚ) / ((10 ^ 5 : Nat) : ℚ))
      * powTenZ (if ene then -(em : Int) else (em : Int))
      = ((sc : ℚ) / 100000) * powTenZ (if ene then -(em : Int) else (em : Int)) := by
    have h1 := decimal_recompose sc 5
    norm_num at h1
    have h2 : ((10 ^ 5 : Nat) : ℚ) = 100000 := by norm_num
    rw [h2, h1]
  cases negm with
  | true =>
    have hshape : (if true then [chMinus] else []) ++ natChars (sc / 100000) ++ [chDot] ++
        padLeftWith chZero 5 (natChars (sc % 100000)) ++ [chE] ++
        (if ene then [chMinus] else [chPlus]) ++ padLeftWith chZero 2 (natChars em) ++ rest
        = chMinus :: (natChars (sc / 100000) ++
            (chDot :: (padLeftWith chZero 5 (natChars (sc % 100000)) ++
              (chE :: ((if ene then chMinus else chPlus) ::
                (padLeftWith chZero 2 (natChars em) ++ rest)))))) := by
      cases ene <;> simp [List.append_assoc]
    rw [hshape, parseQTok, if_pos (by rfl), hfrac, hval]
    norm_num
  | false =>
    have hshape : (if false then [chMinus] else []) ++ natChars (sc / 100000) ++ [chDot] ++
        padLeftWith chZero 5 (natChars (sc % 100000)) ++ [chE] ++
        (if ene then [chMinus] else [chPlus]) ++ padLeftWith chZero 2 (natChars em) ++ rest
        = natChars (sc / 100000) ++
            (chDot :: (padLeftWith chZero 5 (natChars (sc % 100000)) ++
              (chE :: ((if ene then chMinus else chPlus) ::
                (padLeftWith chZero 2 (natChars em) ++ rest))))) := by
      cases ene <;> simp [List.append_assoc]
    have hdh : ∃ d t, d < 10 ∧ natChars (sc / 100000) ++
        (chDot :: (padLeftWith chZero 5 (natChars (sc % 100000)) ++
          (chE :: ((if ene then chMinus else chPlus) ::
            (padLeftWith chZero 2 (natChars em) ++ rest)))))
        = Char.ofNat (48 + d) :: t := by
      obtain ⟨d, t, hd, hshape2⟩ := natChars_head_digit (sc / 100000)
      refine ⟨d, t ++ (chDot :: (padLeftWith chZero 5 (natChars (sc % 100000)) ++
        (chE :: ((if ene then chMinus else chPlus) ::
          (padLeftWith chZero 2 (natChars em) ++ rest))))), hd, ?_⟩
      rw [hshape2]
      rfl
    rw [hshape, parseQTok_digit_head _ hdh, hfrac, hval]
    norm_num

lemma parseQTok_sciContent (x : ℚ) (rest : List Char)
    (htw : rest.takeWhile Char.isDigit = []) :
    parseQTok (sciContent x ++ rest) = some (sciVal x, rest) := by
  by_cases hx : x = 0
  · have hsc : sciContent x
        = (if false then [chMinus] else []) ++ natChars (0 / 100000) ++ [chDot] ++
          padLeftWith chZero 5 (natChars (0 % 100000)) ++ [chE] ++
          (if false then [chMinus] else [chPlus]) ++ padLeftWith chZero 2 (natChars 0) := by
      rw [hx]
      decide
    have h1 := parseQTok_sci_shape false 0 0 false rest htw
    rw [hsc]
    simp only [List.append_assoc] at h1 ⊢
    rw [h1]
    have h0 : powTenZ 0 = 1 := by norm_num [powTenZ]
    norm_num [sciVal, hx, h0]
  · have hlt : (0 : ℚ) < 100000 := by norm_num
    set e := qExpNN (qAbs x) with hedef
    set scaled := rndHalf (qAbs x * powTenZ (-e) * 100000) with hscaleddef
    set sc := if scaled = 1000000 then 100000 else scaled with hscdef
    set e2 := if scaled = 1000000 then e + 1 else e with he2def
    have hsc : sciContent x
        = (if decide (x < 0) then [chMinus] else []) ++ natChars (sc / 100000) ++ [chDot] ++
          padLeftWith chZero 5 (natChars (sc % 100000)) ++ [chE] ++
          (if decide (e2 < 0) then [chMinus] else [chPlus]) ++
          padLeftWith chZero 2 (natChars e2.natAbs) := by
      rw [sciContent, if_neg hx]
      simp only [decide_eq_true_eq]
    have h1 := parseQTok_sci_shape (decide (x < 0)) sc e2.natAbs (decide (e2 < 0)) rest htw
    have hev : (if decide (e2 < 0) then -(e2.natAbs : Int) else (e2.natAbs : Int)) = e2 := by
      by_cases h2 : e2 < 0
      · rw [if_pos (by simpa using h2)]
        omega
      · rw [if_neg (by simpa using h2)]
        omega
    have hsv : sciVal x = (if decide (x < 0) then -1 else 1) *
        (((sc : ℚ) / 100000) * powTenZ e2) := by
      rw [sciVal, if_neg hx]
      simp only [← hedef, ← hscaleddef, ← hscdef, ← he2def]
      by_cases hneg : x < 0 <;> simp [hneg]
    rw [hsc]
    simp only [List.append_assoc] at h1 ⊢
    rw [h1, hev, hsv]

/-
Character-class facts about rendered fields, and stream-level reads.
-/

lemma special_chars_facts :
    cppIsSpace chMinus = false ∧ cppIsSpace chPlus = false ∧ cppIsSpace chDot = false ∧
    cppIsSpace chE = false ∧ cppIsSpace chZero = false ∧
    trimIsWs chMinus = false ∧ trimIsWs chDot = false ∧
    chMinus ≠ chNl ∧ chPlus ≠ chNl ∧ chDot ≠ chNl ∧ chE ≠ chNl ∧
    (chMinus == chSpace) = false ∧ (chPlus == chSpace) = false ∧
    (chDot == chSpace) = false ∧ (chE == chSpace) = false := by
  decide

lemma fixContent_chars (x : ℚ) : ∀ c ∈ fixContent x,
    c = chMinus ∨ c = chDot ∨ ∃ d, d < 10 ∧ c = Char.ofNat (48 + d) := by
  intro c hc
  unfold fixContent at hc
  simp only [List.mem_append, List.mem_singleton] at hc
  rcases hc with ((h1 | h1) | h1) | h1
  · rcases (by split at h1 <;> simp_all : c = chMinus) with h2
    exact Or.inl h2
  · exact Or.inr (Or.inr (natChars_shape _ c h1))
  · exact Or.inr (Or.inl h1)
  · rcases List.mem_append.mp h1 with h2 | h2
    · exact Or.inr (Or.inr ⟨0, by norm_num, by rw [List.eq_of_mem_replicate h2]; rfl⟩)
    · exact Or.inr (Or.inr (natChars_shape _ c h2))

lemma sciContent_chars (x : ℚ) : ∀ c ∈ sciContent x,
    c = chMinus ∨ c = chPlus ∨ c = chDot ∨ c = chE ∨ ∃ d, d < 10 ∧ c = Char.ofNat (48 + d) := by
  intro c hc
  by_cases hx : x = 0
  · rw [hx] at hc
    have : sciContent 0 = [chZero, chDot, chZero, chZero, chZero, chZero, chZero,
        chE, chPlus, chZero, chZero] := by decide
    rw [this] at hc
    fin_cases hc
    · exact Or.inr (Or.inr (Or.inr (Or.inr ⟨0, by norm_num, rfl⟩)))
    · exact Or.inr (Or.inr (Or.inl rfl))
    · exact Or.inr (Or.inr (Or.inr (Or.inr ⟨0, by norm_num, rfl⟩)))
    · exact Or.inr (Or.inr (Or.inr (Or.inr ⟨0, by norm_num, rfl⟩)))
    · exact Or.inr (Or.inr (Or.inr (Or.inr ⟨0, by norm_num, rfl⟩)))
    · exact Or.inr (Or.inr (Or.inr (Or.inr ⟨0, by norm_num, rfl⟩)))
    · exact Or.inr (Or.inr (Or.inr (Or.inr ⟨0, by norm_num, rfl⟩)))
    · exact Or.inr (Or.inr (Or.inr (Or.inl rfl)))
    · exact Or.inr (Or.inl rfl)
    · exact Or.inr (Or.inr (Or.inr (Or.inr ⟨0, by norm_num, rfl⟩)))
    · exact Or.inr (Or.inr (Or.inr (Or.inr ⟨0, by norm_num, rfl⟩)))
  · rw [sciContent, if_neg hx] at hc
    simp only [List.mem_append, List.mem_singleton] at hc
    rcases hc with ((((((h1 | h1) | h1) | h1) | h1) | h1) | h1)
    · rcases (by split at h1 <;> simp_all : c = chMinus) with h2
      exact Or.inl h2
    · exact Or.inr (Or.inr (Or.inr (Or.inr (natChars_shape _ c h1))))
    · exact Or.inr (Or.inr (Or.inl h1))
    · rcases List.mem_append.mp h1 with h2 | h2
      · exact Or.inr (Or.inr (Or.inr (Or.inr ⟨0, by norm_num,
          by rw [List.eq_of_mem_replicate h2]; rfl⟩)))
      · exact Or.inr (Or.inr (Or.inr (Or.inr (natChars_shape _ c h2))))
    · exact Or.inr (Or.inr (Or.inr (Or.inl h1)))
    · have h2 : c = chMinus ∨ c = chPlus := by
        split at h1 <;> (try split at h1) <;> rw [List.mem_singleton] at h1 <;>
          first
          | exact Or.inl h1
          | exact Or.inr h1
      rcases h2 with h2 | h2
      · exact Or.inl h2
      · exact Or.inr (Or.inl h2)
    · rcases List.mem_append.mp h1 with h2 | h2
      · exact Or.inr (Or.inr (Or.inr (Or.inr ⟨0, by norm_num,
          by rw [List.eq_of_mem_replicate h2]; rfl⟩)))
      · exact Or.inr (Or.inr (Or.inr (Or.inr (natChars_shape _ c h2))))

lemma fixContent_no_nl (x : ℚ) : chNl ∉ fixContent x := by
  intro hc
  rcases fixContent_chars x chNl hc with h | h | ⟨d, hd, h⟩
  · exact special_chars_facts.2.2.2.2.2.2.2.1 h.symm
  · exact special_chars_facts.2.2.2.2.2.2.2.2.2.1 h.symm
  · exact (digitChar_facts d hd).2.2.2.2.2.2.2.1 h.symm

lemma sciContent_no_nl (x : ℚ) : chNl ∉ sciContent x := by
  intro hc
  rcases sciContent_chars x chNl hc with h | h | h | h | ⟨d, hd, h⟩
  · exact special_chars_facts.2.2.2.2.2.2.2.1 h.symm
  · exact special_chars_facts.2.2.2.2.2.2.2.2.1 h.symm
  · exact special_chars_facts.2.2.2.2.2.2.2.2.2.1 h.symm
  · exact special_chars_facts.2.2.2.2.2.2.2.2.2.2.1 h.symm
  · exact (digitChar_facts d hd).2.2.2.2.2.2.2.1 h.symm

lemma fixContent_no_space (x : ℚ) : ∀ c ∈ fixContent x, (c == chSpace) = false := by
  intro c hc
  rcases fixContent_chars x c hc with h | h | ⟨d, hd, h⟩ <;> subst h
  · decide
  · decide
  · have := (digitChar_facts d hd).2.2.2.2.2.2.2.2.1
    simp [cppIsSpace] at this
    simp [this.1]

lemma natChars_no_space (n : Nat) : ∀ c ∈ natChars n, (c == chSpace) = false := by
  intro c hc
  obtain ⟨d, hd, h⟩ := natChars_shape n c hc
  subst h
  have := (digitChar_facts d hd).2.2.2.2.2.2.2.2.1
  simp [cppIsSpace] at this
  simp [this.1]

lemma natChars_no_nl (n : Nat) : chNl ∉ natChars n := by
  intro hc
  obtain ⟨d, hd, h⟩ := natChars_shape n chNl hc
  exact (digitChar_facts d hd).2.2.2.2.2.2.2.1 h.symm

lemma fixContent_no_cppSpace (x : ℚ) : ∀ c ∈ fixContent x, cppIsSpace c = false := by
  intro c hc
  rcases fixContent_chars x c hc with h | h | ⟨d, hd, h⟩ <;> subst h
  · exact special_chars_facts.1
  · exact special_chars_facts.2.2.1
  · exact (digitChar_facts d hd).2.2.2.2.2.2.2.2.1

lemma sciContent_no_cppSpace (x : ℚ) : ∀ c ∈ sciContent x, cppIsSpace c = false := by
  intro c hc
  rcases sciContent_chars x c hc with h | h | h | h | ⟨d, hd, h⟩ <;> subst h
  · exact special_chars_facts.1
  · exact special_chars_facts.2.1
  · exact special_chars_facts.2.2.1
  · exact special_chars_facts.2.2.2.1
  · exact (digitChar_facts d hd).2.2.2.2.2.2.2.2.1

lemma natChars_no_cppSpace (n : Nat) : ∀ c ∈ natChars n, cppIsSpace c = false := by
  intro c hc
  obtain ⟨d, hd, h⟩ := natChars_shape n c hc
  subst h
  exact (digitChar_facts d hd).2.2.2.2.2.2.2.2.1

lemma dropWhile_ws_token (ws tok : List Char)
    (hws : ∀ c ∈ ws, cppIsSpace c = true)
    (hh : ∀ c ∈ tok, cppIsSpace c = false) :
    (ws ++ tok).dropWhile cppIsSpace = tok := by
  rw [dropWhile_append_all ws tok hws]
  cases tok with
  | nil => rfl
  | cons c t =>
    rw [List.dropWhile_cons, if_neg (by simp [hh c (List.mem_cons_self c t)])]

lemma readIntS_token (ws : List Char) (n : Nat) (rest : List Char)
    (hws : ∀ c ∈ ws, cppIsSpace c = true)
    (htw : rest.takeWhile Char.isDigit = []) :
    readIntS ⟨ws ++ (natChars n ++ rest), false⟩ = ((n : Int), ⟨rest, false⟩) := by
  have hdw : (ws ++ (natChars n ++ rest)).dropWhile cppIsSpace = natChars n ++ rest := by
    have hne : natChars n ++ rest ≠ [] := by simp [natChars_ne_nil n]
    cases hh : natChars n ++ rest with
    | nil => exact absurd hh hne
    | cons c t =>
      have hc : c ∈ natChars n := by
        obtain ⟨d, t2, hd, hn⟩ := natChars_head_digit n
        rw [hn, List.cons_append, List.cons.injEq] at hh
        rw [hn, hh.1.symm]
        exact List.mem_cons_self _ _
      rw [dropWhile_append_all ws _ hws]
      rw [List.dropWhile_cons, if_neg (by simp [natChars_no_cppSpace n c hc])]
  rw [readIntS]
  simp only [Bool.false_eq_true, if_false, hdw, parseIntTok_natChars n rest htw]

lemma readQS_fix (ws : List Char) (x : ℚ) (rest : List Char)
    (hws : ∀ c ∈ ws, cppIsSpace c = true)
    (htw : rest.takeWhile Char.isDigit = [])
    (he : ∀ c, rest.head? = some c → (c == chE || c == chEUp) = false) :
    readQS ⟨ws ++ (fixContent x ++ rest), false⟩ = (fixVal x, ⟨rest, false⟩) := by
  have hfne : fixContent x ≠ [] := by
    rw [fixContent]
    intro habs
    have := congrArg List.length habs
    simp at this
  have hdw : (ws ++ (fixContent x ++ rest)).dropWhile cppIsSpace = fixContent x ++ rest := by
    cases hh : fixContent x with
    | nil => exact absurd hh hfne
    | cons c t =>
      have hc : c ∈ fixContent x := by rw [hh]; exact List.mem_cons_self c t
      rw [dropWhile_append_all ws _ hws]
      rw [List.cons_append, List.dropWhile_cons,
        if_neg (by simp [fixContent_no_cppSpace x c hc])]
  rw [readQS]
  simp only [Bool.false_eq_true, if_false, hdw, parseQTok_fixContent x rest htw he]

lemma sciContent_ne_nil (x : ℚ) : sciContent x ≠ [] := by
  by_cases hx : x = 0
  · rw [hx]
    decide
  · rw [sciContent, if_neg hx]
    intro habs
    have := congrArg List.length habs
    simp at this

lemma readQS_sci (ws : List Char) (x : ℚ) (rest : List Char)
    (hws : ∀ c ∈ ws, cppIsSpace c = true)
    (htw : rest.takeWhile Char.isDigit = []) :
    readQS ⟨ws ++ (sciContent x ++ rest), false⟩ = (sciVal x, ⟨rest, false⟩) := by
  have hdw : (ws ++ (sciContent x ++ rest)).dropWhile cppIsSpace = sciContent x ++ rest := by
    cases hh : sciContent x with
    | nil => exact absurd hh (sciContent_ne_nil x)
    | cons c t =>
      have hc : c ∈ sciContent x := by rw [hh]; exact List.mem_cons_self c t
      rw [dropWhile_append_all ws _ hws]
      rw [List.cons_append, List.dropWhile_cons,
        if_neg (by simp [sciContent_no_cppSpace x c hc])]
  rw [readQS]
  simp only [Bool.false_eq_true, if_false, hdw, parseQTok_sciContent x rest htw]

lemma getlineS_line (l rest prev : List Char) (hl : chNl ∉ l) :
    getlineS ⟨l ++ (chNl :: rest), false⟩ prev = (l, ⟨rest, false⟩) := by
  have hne : (l ++ (chNl :: rest)).isEmpty = false := by
    cases l <;> rfl
  have htk : (l ++ (chNl :: rest)).takeWhile (fun c => c != chNl) = l := by
    rw [takeWhile_append_all l _ (fun c hc => by simp; exact fun h => hl (h ▸ hc))]
    simp [List.takeWhile_cons]
  have hdr : (l ++ (chNl :: rest)).dropWhile (fun c => c != chNl) = chNl :: rest := by
    rw [dropWhile_append_all l _ (fun c hc => by simp; exact fun h => hl (h ▸ hc))]
    simp [List.dropWhile_cons]
  rw [getlineS]
  simp only [Bool.false_eq_true, if_false, hne, htk, hdr, List.drop_succ_cons, List.drop_zero]

lemma splitCh_cons_space (cs : List Char) :
    splitCh (chSpace :: cs) chSpace = splitCh cs chSpace := by
  rw [splitCh, splitChAux, if_pos (by rfl)]
  rw [splitCh]
  simp

lemma splitCh_replicate_space (k : Nat) (cs : List Char) :
    splitCh (List.replicate k chSpace ++ cs) chSpace = splitCh cs chSpace := by
  induction k with
  | zero => rfl
  | succ m ih => rw [List.replicate_succ, List.cons_append, splitCh_cons_space, ih]

lemma splitChAux_field (f : List Char) (hf : ∀ c ∈ f, (c == chSpace) = false) :
    ∀ (cs acc : List Char), splitChAux chSpace (f ++ chSpace :: cs) acc
      = (acc.reverse ++ f) :: splitChAux chSpace cs [] := by
  induction f with
  | nil => intro cs acc; rw [List.nil_append, splitChAux, if_pos (by rfl)]; simp
  | cons c t ih =>
    intro cs acc
    rw [List.cons_append, splitChAux, if_neg (by simp [hf c (List.mem_cons_self c t)])]
    rw [ih (fun d hd => hf d (List.mem_cons_of_mem c hd)) cs (c :: acc)]
    simp

lemma splitChAux_field_nil (f : List Char) (hf : ∀ c ∈ f, (c == chSpace) = false) :
    ∀ acc, splitChAux chSpace f acc = [acc.reverse ++ f] := by
  induction f with
  | nil => intro acc; rw [splitChAux]; simp
  | cons c t ih =>
    intro acc
    rw [splitChAux, if_neg (by simp [hf c (List.mem_cons_self c t)])]
    rw [ih (fun d hd => hf d (List.mem_cons_of_mem c hd)) (c :: acc)]
    simp

lemma splitCh_field (f cs : List Char) (hf : ∀ c ∈ f, (c == chSpace) = false)
    (hne : f ≠ []) (hcs : cs = [] ∨ ∃ cs2, cs = chSpace :: cs2) :
    splitCh (f ++ cs) chSpace = f :: splitCh cs chSpace := by
  rcases hcs with h | ⟨cs2, h⟩
  · subst h
    rw [List.append_nil, splitCh, splitChAux_field_nil f hf []]
    have h2 : splitCh ([] : List Char) chSpace = [] := rfl
    rw [h2]
    simp [hne]
  · subst h
    rw [splitCh, splitChAux_field f hf cs2 []]
    rw [splitCh_cons_space]
    have h3 : splitCh cs2 chSpace = (splitChAux chSpace cs2 []).filter (fun g => !g.isEmpty) := rfl
    simp [h3, hne]

lemma trimmed_pad (k : Nat) (rest : List Char) (hne : rest ≠ [])
    (hh : ∀ c t, rest = c :: t → trimIsWs c = false)
    (hl : ∀ c, rest.getLast? = some c → trimIsWs c = false) :
    trimmed (List.replicate k chSpace ++ rest) = rest := by
  have hws : ∀ c ∈ List.replicate k chSpace, trimIsWs c = true := by
    intro c hc
    rw [List.eq_of_mem_replicate hc]
    rfl
  have hfront : (List.replicate k chSpace ++ rest).dropWhile trimIsWs = rest := by
    rw [dropWhile_append_all _ _ hws]
    cases rest with
    | nil => rfl
    | cons c t => rw [List.dropWhile_cons, if_neg (by simp [hh c t rfl])]
  rw [trimmed, hfront]
  cases hrev : rest.reverse with
  | nil => exact absurd (by simpa using congrArg List.reverse hrev) hne
  | cons c t =>
    have hlast : rest.getLast? = some c := by
      rw [← List.head?_reverse, hrev]
      rfl
    have hstop : List.dropWhile trimIsWs (c :: t) = c :: t := by
      rw [List.dropWhile_cons, if_neg (by simp [hl c hlast])]
    rw [hstop, ← hrev, List.reverse_reverse]

/-
Exact-rounding round trips of the two numeric formats.
-/

lemma qAbs_of_nonneg (x : ℚ) (h : 0 ≤ x) : qAbs x = x := by
  rw [qAbs, if_neg (not_lt.mpr h)]

lemma qAbs_of_neg (x : ℚ) (h : x < 0) : qAbs x = -x := by
  rw [qAbs, if_pos h]

lemma qAbs_nonneg (x : ℚ) : 0 ≤ qAbs x := by
  rw [qAbs]
  split
  · linarith
  · linarith [not_lt.mp (by assumption : ¬x < 0)]

lemma rndHalf_eq_floor (x : ℚ) (hx : 0 ≤ x) : (rndHalf x : ℤ) = ⌊x + 1 / 2⌋ := by
  have hq : (0 : ℚ) ≤ x + 1 / 2 := by linarith
  have hnum : 0 ≤ (x + 1 / 2).num := Rat.num_nonneg.mpr hq
  rw [rndHalf, Rat.floor_def]
  have h1 : (x + 1 / 2).num = ((x + 1 / 2).num.toNat : ℤ) := (Int.toNat_of_nonneg hnum).symm
  rw [h1]
  exact_mod_cast rfl

lemma rndHalf_unique (x : ℚ) (n : Nat) (hx : 0 ≤ x)
    (h1 : (n : ℚ) ≤ x + 1 / 2) (h2 : x + 1 / 2 < (n : ℚ) + 1) :
    rndHalf x = n := by
  have hfl : ⌊x + 1 / 2⌋ = (n : ℤ) := by
    rw [Int.floor_eq_iff]
    constructor
    · exact_mod_cast h1
    · push_cast
      exact h2
  have h3 := rndHalf_eq_floor x hx
  rw [hfl] at h3
  exact_mod_cast h3

lemma rndHalf_cast_nat (n : Nat) : rndHalf (n : ℚ) = n :=
  rndHalf_unique (n : ℚ) n (by positivity) (by linarith) (by linarith)

lemma fixVal_qAbs (x : ℚ) (hok : fixOk x) :
    qAbs (fixVal x) = (rndHalf (qAbs x * 1000000) : ℚ) / 1000000 ∧
    (fixVal x < 0 ↔ x < 0) := by
  set n := rndHalf (qAbs x * 1000000) with hn
  have hn0 : (0 : ℚ) ≤ (n : ℚ) / 1000000 := by positivity
  by_cases hneg : x < 0
  · have hnz : n ≠ 0 := hok.2 hneg
    have hpos : (0 : ℚ) < (n : ℚ) / 1000000 := by
      have : (0 : ℚ) < (n : ℚ) := by
        have : 0 < n := Nat.pos_of_ne_zero hnz
        exact_mod_cast this
      positivity
    have hv : fixVal x = -((n : ℚ) / 1000000) := by
      rw [fixVal, if_pos hneg, ← hn]
      ring
    constructor
    · rw [hv, qAbs_of_neg _ (by linarith), neg_neg]
    · constructor
      · intro _; exact hneg
      · intro _; rw [hv]; linarith
  · have hv : fixVal x = (n : ℚ) / 1000000 := by
      rw [fixVal, if_neg hneg, ← hn]
      ring
    constructor
    · rw [hv, qAbs_of_nonneg _ hn0]
    · constructor
      · intro habs
        rw [hv] at habs
        linarith
      · intro habs
        exact absurd habs hneg

lemma fixContent_roundtrip (x : ℚ) (hok : fixOk x) :
    fixContent (fixVal x) = fixContent x := by
  obtain ⟨habs, hsign⟩ := fixVal_qAbs x hok
  set n := rndHalf (qAbs x * 1000000) with hn
  have hscale : qAbs (fixVal x) * 1000000 = (n : ℚ) := by
    rw [habs]
    field_simp
  have hrnd : rndHalf (qAbs (fixVal x) * 1000000) = n := by
    rw [hscale, rndHalf_cast_nat]
  rw [fixContent, fixContent, hrnd, ← hn]
  by_cases hneg : x < 0
  · rw [if_pos (hsign.mpr hneg), if_pos hneg]
  · rw [if_neg (fun h2 => hneg (hsign.mp h2)), if_neg hneg]

lemma powTenZ_eq_zpow (e : Int) : powTenZ e = (10 : ℚ) ^ e := by
  by_cases he : 0 ≤ e
  · rw [powTenZ, if_pos he]
    have h1 : ((10 ^ e.toNat : Nat) : ℚ) = (10 : ℚ) ^ (e.toNat : ℕ) := by push_cast; ring
    rw [h1, ← zpow_natCast (10 : ℚ) e.toNat, Int.toNat_of_nonneg he]
  · rw [powTenZ, if_neg he]
    push_neg at he
    have h2 : (((-e).toNat : ℤ)) = -e := Int.toNat_of_nonneg (by omega)
    have h1 : ((10 ^ (-e).toNat : Nat) : ℚ) = (10 : ℚ) ^ ((-e).toNat : ℕ) := by
      push_cast
      ring
    rw [one_div, h1, ← zpow_natCast (10 : ℚ) (-e).toNat, h2, ← zpow_neg, neg_neg]

lemma powTenZ_pos (e : Int) : 0 < powTenZ e := by
  rw [powTenZ_eq_zpow]
  positivity

lemma powTenZ_mul_cancel (e : Int) : powTenZ e * powTenZ (-e) = 1 := by
  rw [powTenZ_eq_zpow, powTenZ_eq_zpow, ← zpow_add₀ (by norm_num : (10 : ℚ) ≠ 0)]
  simp

lemma powTenZ_mono {a b : Int} (h : a ≤ b) : powTenZ a ≤ powTenZ b := by
  rw [powTenZ_eq_zpow, powTenZ_eq_zpow]
  exact zpow_le_zpow_right₀ (by norm_num) h

lemma powTenZ_succ (e : Int) : powTenZ (e + 1) = 10 * powTenZ e := by
  rw [powTenZ_eq_zpow, powTenZ_eq_zpow, zpow_add₀ (by norm_num : (10 : ℚ) ≠ 0)]
  ring

lemma powTenZ_natCast (k : Nat) : powTenZ (k : Int) = ((10 ^ k : Nat) : ℚ) := by
  rw [powTenZ, if_pos (by positivity)]
  norm_num

lemma powTenZ_neg_natCast (k : Nat) : powTenZ (-(k : Int)) = 1 / ((10 ^ k : Nat) : ℚ) := by
  cases k with
  | zero => norm_num [powTenZ]
  | succ m =>
    rw [powTenZ, if_neg (by omega)]
    norm_num

lemma qExpNN_spec (x : ℚ) (hx : 0 < x) :
    powTenZ (qExpNN x) ≤ x ∧ x < powTenZ (qExpNN x + 1) := by
  have hnum : 0 < x.num := Rat.num_pos.mpr hx
  set N := x.num.toNat with hNdef
  set D := x.den with hDdef
  have hN : 0 < N := by omega
  have hD : 0 < D := x.pos
  have hDQ : (0 : ℚ) < (D : ℚ) := by exact_mod_cast hD
  have hxform : x = (N : ℚ) / (D : ℚ) := by
    have h1 : ((N : ℤ) : ℚ) = (x.num : ℚ) := by
      rw [hNdef, Int.toNat_of_nonneg (le_of_lt hnum)]
    rw [show ((N : ℚ)) = ((N : ℤ) : ℚ) by push_cast; ring, h1, hDdef, Rat.num_div_den]
  by_cases hcase : D ≤ N
  · -- x is at least one
    set q := N / D with hqdef
    have hq1 : 1 ≤ q := (Nat.one_le_div_iff hD).mpr hcase
    obtain ⟨hlo, hhi⟩ := natChars_length_bounds q hq1
    set L := (natChars q).length with hLdef
    have hL1 : 1 ≤ L := List.length_pos.mpr (natChars_ne_nil q)
    have hqe : qExpNN x = (L : Int) - 1 := by
      rw [qExpNN, if_pos hcase]
    have hqDN : q * D ≤ N := Nat.div_mul_le_self N D
    have hNq : N < (q + 1) * D := by
      have hmod := Nat.div_add_mod N D
      have hmlt := Nat.mod_lt N hD
      calc N = D * q + N % D := by rw [hqdef]; omega
        _ < D * q + D := by omega
        _ = (q + 1) * D := by ring
    constructor
    · rw [hqe]
      have h2 : ((L : Int) - 1) = ((L - 1 : Nat) : Int) := by omega
      rw [h2, powTenZ_natCast, hxform, le_div_iff hDQ]
      have h3 : 10 ^ (L - 1) * D ≤ N := by
        calc 10 ^ (L - 1) * D ≤ q * D := Nat.mul_le_mul_right D hlo
          _ ≤ N := hqDN
      exact_mod_cast h3
    · rw [hqe, sub_add_cancel]
      have h2 : ((L : Int)) = ((L : Nat) : Int) := rfl
      rw [h2, powTenZ_natCast, hxform, div_lt_iff hDQ]
      have h3 : N < 10 ^ L * D := by
        calc N < (q + 1) * D := hNq
          _ ≤ 10 ^ L * D := Nat.mul_le_mul_right D (by omega)
      exact_mod_cast h3
  · -- x is below one
    push_neg at hcase
    have hND : N ≤ D := le_of_lt hcase
    set M := D / N with hMdef
    have hM1 : 1 ≤ M := (Nat.one_le_div_iff hN).mpr hND
    obtain ⟨hlo, hhi⟩ := natChars_length_bounds M hM1
    set d := (natChars M).length with hddef
    have hd1 : 1 ≤ d := List.length_pos.mpr (natChars_ne_nil M)
    have hMN : M * N ≤ D := Nat.div_mul_le_self D N
    have hDM : D < N * (M + 1) := by
      have hmod := Nat.div_add_mod D N
      have hmlt := Nat.mod_lt D hN
      calc D = N * M + D % N := by rw [hMdef]; omega
        _ < N * M + N := by omega
        _ = N * (M + 1) := by ring
    by_cases hsub : D ≤ N * 10 ^ (d - 1)
    · have hqe : qExpNN x = -((d : Int) - 1) := by
        rw [qExpNN, if_neg (by omega), if_pos hsub]
      have hd2 : 2 ≤ d := by
        by_contra habs
        push_neg at habs
        interval_cases d
        · simp at hsub
          omega
      constructor
      · rw [hqe]
        have h2 : -((d : Int) - 1) = -(((d - 1 : Nat) : Int)) := by omega
        rw [h2, powTenZ_neg_natCast, hxform, div_le_div_iff (by positivity) hDQ]
        have h3 : 1 * D ≤ (N : Nat) * 10 ^ (d - 1) := by
          calc 1 * D = D := one_mul D
            _ ≤ N * 10 ^ (d - 1) := hsub
        exact_mod_cast h3
      · rw [hqe]
        have h2 : -((d : Int) - 1) + 1 = -(((d - 2 : Nat) : Int)) := by omega
        rw [h2, powTenZ_neg_natCast, hxform, div_lt_div_iff hDQ (by positivity)]
        have h5 : N * 10 ^ (d - 2) < N * 10 ^ (d - 1) :=
          mul_lt_mul_of_pos_left (Nat.pow_lt_pow_right (by norm_num) (by omega)) hN
        have h3 : N * 10 ^ (d - 2) < 1 * D := by
          calc N * 10 ^ (d - 2) < N * 10 ^ (d - 1) := h5
            _ ≤ N * M := Nat.mul_le_mul_left N hlo
            _ = M * N := by ring
            _ ≤ D := hMN
            _ = 1 * D := (one_mul D).symm
        exact_mod_cast h3
    · push_neg at hsub
      have hqe : qExpNN x = -(d : Int) := by
        rw [qExpNN, ← hNdef, ← hDdef, ← hMdef, ← hddef]
        rw [if_neg (by omega), if_neg (by omega)]
      constructor
      · rw [hqe, powTenZ_neg_natCast, hxform, div_le_div_iff (by positivity) hDQ]
        have h3 : 1 * D ≤ N * 10 ^ d := by
          have h4 : N * (M + 1) ≤ N * 10 ^ d := Nat.mul_le_mul_left N (by omega)
          calc 1 * D = D := one_mul D
            _ ≤ N * (M + 1) := le_of_lt hDM
            _ ≤ N * 10 ^ d := h4
        exact_mod_cast h3
      · rw [hqe]
        have h2 : -(d : Int) + 1 = -(((d - 1 : Nat) : Int)) := by omega
        rw [h2, powTenZ_neg_natCast, hxform, div_lt_div_iff hDQ (by positivity)]
        have h3 : N * 10 ^ (d - 1) < 1 * D := by
          rw [one_mul]
          exact hsub
        exact_mod_cast h3

lemma qExpNN_unique (x : ℚ) (e : Int) (hx : 0 < x)
    (h1 : powTenZ e ≤ x) (h2 : x < powTenZ (e + 1)) : qExpNN x = e := by
  obtain ⟨g1, g2⟩ := qExpNN_spec x hx
  by_contra hne
  rcases lt_or_gt_of_ne hne with hlt | hgt
  · have h3 : qExpNN x + 1 ≤ e := by omega
    have h4 : powTenZ (qExpNN x + 1) ≤ powTenZ e := powTenZ_mono h3
    linarith
  · have h3 : e + 1 ≤ qExpNN x := by omega
    have h4 : powTenZ (e + 1) ≤ powTenZ (qExpNN x) := powTenZ_mono h3
    linarith

lemma qAbs_pos (x : ℚ) (hx : x ≠ 0) : 0 < qAbs x := by
  rw [qAbs]
  split
  · linarith [(by assumption : x < 0)]
  · rcases lt_trichotomy x 0 with h | h | h
    · exact absurd h (by assumption)
    · exact absurd h hx
    · exact h

lemma sciVal_eq_parts (x : ℚ) (hx : x ≠ 0) :
    sciVal x = (if x < 0 then -1 else 1) * ((sciSc x : ℚ) / 100000 * powTenZ (sciE2 x)) := by
  rw [sciVal, if_neg hx]
  rfl

lemma sciContent_eq_parts (x : ℚ) (hx : x ≠ 0) :
    sciContent x = (if x < 0 then [chMinus] else []) ++ natChars (sciSc x / 100000) ++ [chDot] ++
      padLeftWith chZero 5 (natChars (sciSc x % 100000)) ++ [chE] ++
      (if sciE2 x < 0 then [chMinus] else [chPlus]) ++
      padLeftWith chZero 2 (natChars (sciE2 x).natAbs) := by
  rw [sciContent, if_neg hx]
  rfl

lemma sci_mant_bounds (x : ℚ) (hx : x ≠ 0) :
    (1 : ℚ) ≤ qAbs x * powTenZ (-(qExpNN (qAbs x))) ∧
    qAbs x * powTenZ (-(qExpNN (qAbs x))) < 10 := by
  have ha : 0 < qAbs x := qAbs_pos x hx
  obtain ⟨hle, hlt⟩ := qExpNN_spec (qAbs x) ha
  have hpe : 0 < powTenZ (-(qExpNN (qAbs x))) := powTenZ_pos _
  constructor
  · calc (1 : ℚ) = powTenZ (qExpNN (qAbs x)) * powTenZ (-(qExpNN (qAbs x))) :=
          (powTenZ_mul_cancel _).symm
      _ ≤ qAbs x * powTenZ (-(qExpNN (qAbs x))) :=
          mul_le_mul_of_nonneg_right hle (le_of_lt hpe)
  · have h2 : qAbs x < 10 * powTenZ (qExpNN (qAbs x)) := by rw [← powTenZ_succ]; exact hlt
    calc qAbs x * powTenZ (-(qExpNN (qAbs x)))
        < 10 * powTenZ (qExpNN (qAbs x)) * powTenZ (-(qExpNN (qAbs x))) :=
          mul_lt_mul_of_pos_right h2 hpe
      _ = 10 * (powTenZ (qExpNN (qAbs x)) * powTenZ (-(qExpNN (qAbs x)))) := by ring
      _ = 10 := by rw [powTenZ_mul_cancel]; ring

lemma sciScaled_bounds (x : ℚ) (hx : x ≠ 0) :
    100000 ≤ sciScaled x ∧ sciScaled x ≤ 1000000 := by
  obtain ⟨hm1, hm10⟩ := sci_mant_bounds x hx
  set m := qAbs x * powTenZ (-(qExpNN (qAbs x))) with hmdef
  have h0 : (0 : ℚ) ≤ m * 100000 := by nlinarith
  have hfl := rndHalf_eq_floor (m * 100000) h0
  have hsceq : sciScaled x = rndHalf (m * 100000) := by rw [sciScaled, hmdef]
  constructor
  · have h4 : (100000 : ℤ) ≤ ⌊m * 100000 + 1 / 2⌋ := by
      apply Int.le_floor.mpr
      push_cast
      nlinarith
    have h5 : (100000 : ℤ) ≤ (sciScaled x : ℤ) := by rw [hsceq, hfl]; exact h4
    exact_mod_cast h5
  · have h4 : ⌊m * 100000 + 1 / 2⌋ < 1000001 := by
      apply Int.floor_lt.mpr
      push_cast
      nlinarith
    have h5 : (sciScaled x : ℤ) < 1000001 := by rw [hsceq, hfl]; exact h4
    omega

lemma sciSc_bounds (x : ℚ) (hx : x ≠ 0) : 100000 ≤ sciSc x ∧ sciSc x < 1000000 := by
  obtain ⟨h1, h2⟩ := sciScaled_bounds x hx
  rw [sciSc]
  split
  · omega
  · rename_i hne
    omega

lemma sciVal_abs_sign (x : ℚ) (hx : x ≠ 0) :
    qAbs (sciVal x) = (sciSc x : ℚ) / 100000 * powTenZ (sciE2 x) ∧
    (sciVal x < 0 ↔ x < 0) ∧ sciVal x ≠ 0 := by
  have hb := sciSc_bounds x hx
  have hpos : (0 : ℚ) < (sciSc x : ℚ) / 100000 * powTenZ (sciE2 x) := by
    have h1 : (0 : ℚ) < (sciSc x : ℚ) := by
      exact_mod_cast Nat.lt_of_lt_of_le (by norm_num) hb.1
    have h2 := powTenZ_pos (sciE2 x)
    positivity
  rw [sciVal_eq_parts x hx]
  by_cases hneg : x < 0
  · rw [if_pos hneg]
    refine ⟨?_, ⟨fun _ => hneg, fun _ => by linarith⟩, fun h0 => by linarith⟩
    rw [qAbs_of_neg _ (by linarith)]
    ring
  · rw [if_neg hneg, one_mul]
    refine ⟨qAbs_of_nonneg _ (le_of_lt hpos), ⟨fun h => absurd h (by linarith), fun h => absurd h hneg⟩,
      ne_of_gt hpos⟩

lemma sciVal_qExpNN (x : ℚ) (hx : x ≠ 0) :
    qExpNN (qAbs (sciVal x)) = sciE2 x := by
  obtain ⟨habs, hsg, hne⟩ := sciVal_abs_sign x hx
  obtain ⟨hb1, hb2⟩ := sciSc_bounds x hx
  have hd1 : (1 : ℚ) ≤ (sciSc x : ℚ) / 100000 := by
    rw [le_div_iff (by norm_num : (0 : ℚ) < 100000)]
    have h : (100000 : ℚ) ≤ (sciSc x : ℚ) := by exact_mod_cast hb1
    linarith
  have hd2 : (sciSc x : ℚ) / 100000 < 10 := by
    rw [div_lt_iff (by norm_num : (0 : ℚ) < 100000)]
    have h : (sciSc x : ℚ) < 1000000 := by exact_mod_cast hb2
    linarith
  apply qExpNN_unique
  · exact qAbs_pos _ hne
  · rw [habs]
    calc powTenZ (sciE2 x) = 1 * powTenZ (sciE2 x) := (one_mul _).symm
      _ ≤ (sciSc x : ℚ) / 100000 * powTenZ (sciE2 x) :=
          mul_le_mul_of_nonneg_right hd1 (le_of_lt (powTenZ_pos _))
  · rw [habs, powTenZ_succ]
    exact mul_lt_mul_of_pos_right hd2 (powTenZ_pos _)

lemma sciScaled_sciVal (x : ℚ) (hx : x ≠ 0) : sciScaled (sciVal x) = sciSc x := by
  obtain ⟨habs, hsg, hne⟩ := sciVal_abs_sign x hx
  have hqe := sciVal_qExpNN x hx
  have hm : qAbs (sciVal x) * powTenZ (-(qExpNN (qAbs (sciVal x)))) * 100000 = (sciSc x : ℚ) := by
    rw [hqe, habs]
    calc (sciSc x : ℚ) / 100000 * powTenZ (sciE2 x) * powTenZ (-(sciE2 x)) * 100000
        = (sciSc x : ℚ) / 100000 * 100000 * (powTenZ (sciE2 x) * powTenZ (-(sciE2 x))) := by
          ring
      _ = (sciSc x : ℚ) / 100000 * 100000 * 1 := by rw [powTenZ_mul_cancel]
      _ = (sciSc x : ℚ) := by field_simp
  rw [sciScaled, hm, rndHalf_cast_nat]

lemma sciSc_sciVal (x : ℚ) (hx : x ≠ 0) : sciSc (sciVal x) = sciSc x := by
  have h := sciScaled_sciVal x hx
  have hb2 := (sciSc_bounds x hx).2
  rw [sciSc, h, if_neg (by omega)]

lemma sciE2_sciVal (x : ℚ) (hx : x ≠ 0) : sciE2 (sciVal x) = sciE2 x := by
  have h := sciScaled_sciVal x hx
  have hb2 := (sciSc_bounds x hx).2
  rw [sciE2, h, if_neg (by omega)]
  exact sciVal_qExpNN x hx

lemma sciContent_roundtrip (x : ℚ) : sciContent (sciVal x) = sciContent x := by
  by_cases hx : x = 0
  · rw [hx]
    have h0 : sciVal (0 : ℚ) = 0 := by rw [sciVal, if_pos rfl]
    rw [h0]
  · obtain ⟨habs, hsign, hne⟩ := sciVal_abs_sign x hx
    rw [sciContent_eq_parts _ hne, sciContent_eq_parts _ hx,
        sciSc_sciVal x hx, sciE2_sciVal x hx]
    have hs : (if sciVal x < 0 then [chMinus] else []) = (if x < 0 then [chMinus] else []) := by
      by_cases hneg : x < 0
      · rw [if_pos hneg, if_pos (hsign.mpr hneg)]
      · rw [if_neg hneg, if_neg (fun h => hneg (hsign.mp h))]
    rw [hs]

lemma writeSciFloat_roundtrip (x : ℚ) : writeSciFloat (sciVal x) = writeSciFloat x := by
  rw [writeSciFloat, writeSciFloat, sciContent_roundtrip]

lemma writeValuesAux_head_space (i : Nat) (v : ℚ) (vs : List ℚ) (hok : sciOk v) :
    ∃ t, writeValuesAux i (v :: vs) = chSpace :: t := by
  have hlt : (sciContent v).length < 13 := hok
  rw [writeValuesAux, writeSciFloat, padLeftWith]
  have h13 : 13 - (sciContent v).length = (12 - (sciContent v).length) + 1 := by omega
  rw [h13, List.replicate_succ]
  exact ⟨_, rfl⟩

lemma readVoxels_writeValues (vs : List ℚ) : ∀ (i : Nat) (ws : List Char),
    (∀ c ∈ ws, cppIsSpace c = true) →
    (∀ v ∈ vs, sciOk v) →
    (readVoxels vs.length ⟨ws ++ writeValuesAux i vs, false⟩).1 = vs.map sciVal := by
  induction vs with
  | nil => intro i ws hws hok; rfl
  | cons v vs ih =>
    intro i ws hws hok
    have hokv : sciOk v := hok v (List.mem_cons_self v vs)
    have hokvs : ∀ u ∈ vs, sciOk u := fun u hu => hok u (List.mem_cons_of_mem v hu)
    have hlt : (sciContent v).length < 13 := hokv
    have hws2 : ∀ c ∈ ws ++ List.replicate (13 - (sciContent v).length) chSpace,
        cppIsSpace c = true := by
      intro c hc
      rcases List.mem_append.mp hc with h | h
      · exact hws c h
      · rw [List.eq_of_mem_replicate h]; decide
    by_cases hi : i % 6 = 5
    · have harr : ws ++ writeValuesAux i (v :: vs) =
          (ws ++ List.replicate (13 - (sciContent v).length) chSpace) ++
            (sciContent v ++ (chNl :: writeValuesAux (i + 1) vs)) := by
        rw [writeValuesAux, if_pos hi, writeSciFloat, padLeftWith]
        simp [List.append_assoc, nlC]
      have htw : (chNl :: writeValuesAux (i + 1) vs).takeWhile Char.isDigit = [] := by
        rw [List.takeWhile_cons, if_neg (by decide)]
      have hq := readQS_sci (ws ++ List.replicate (13 - (sciContent v).length) chSpace) v
        (chNl :: writeValuesAux (i + 1) vs) hws2 htw
      calc (readVoxels (v :: vs).length ⟨ws ++ writeValuesAux i (v :: vs), false⟩).1
          = (readQS ⟨ws ++ writeValuesAux i (v :: vs), false⟩).1 ::
            (readVoxels vs.length
              (readQS ⟨ws ++ writeValuesAux i (v :: vs), false⟩).2).1 := rfl
        _ = sciVal v :: (readVoxels vs.length ⟨chNl :: writeValuesAux (i + 1) vs, false⟩).1 := by
            rw [harr, hq]
        _ = sciVal v :: vs.map sciVal := by
            rw [show (chNl :: writeValuesAux (i + 1) vs : List Char)
                = [chNl] ++ writeValuesAux (i + 1) vs from rfl]
            rw [ih (i + 1) [chNl] (by intro c hc; simp at hc; subst hc; decide) hokvs]
    · have harr : ws ++ writeValuesAux i (v :: vs) =
          (ws ++ List.replicate (13 - (sciContent v).length) chSpace) ++
            (sciContent v ++ writeValuesAux (i + 1) vs) := by
        rw [writeValuesAux, if_neg hi, writeSciFloat, padLeftWith]
        simp [List.append_assoc]
      have htw : (writeValuesAux (i + 1) vs).takeWhile Char.isDigit = [] := by
        cases vs with
        | nil => rfl
        | cons v2 vs2 =>
          obtain ⟨t, ht⟩ := writeValuesAux_head_space (i + 1) v2 vs2
            (hokvs v2 (List.mem_cons_self v2 vs2))
          rw [ht, List.takeWhile_cons, if_neg (by decide)]
      have hq := readQS_sci (ws ++ List.replicate (13 - (sciContent v).length) chSpace) v
        (writeValuesAux (i + 1) vs) hws2 htw
      calc (readVoxels (v :: vs).length ⟨ws ++ writeValuesAux i (v :: vs), false⟩).1
          = (readQS ⟨ws ++ writeValuesAux i (v :: vs), false⟩).1 ::
            (readVoxels vs.length
              (readQS ⟨ws ++ writeValuesAux i (v :: vs), false⟩).2).1 := rfl
        _ = sciVal v :: (readVoxels vs.length ⟨writeValuesAux (i + 1) vs, false⟩).1 := by
            rw [harr, hq]
        _ = sciVal v :: vs.map sciVal := by
            rw [show (writeValuesAux (i + 1) vs : List Char)
                = [] ++ writeValuesAux (i + 1) vs from (List.nil_append _).symm]
            rw [ih (i + 1) [] (by intro c hc; simp at hc) hokvs]

lemma fixContent_no_trimWs (x : ℚ) : ∀ c ∈ fixContent x, trimIsWs c = false := by
  intro c hc
  rcases fixContent_chars x c hc with h | h | ⟨d, hd, h⟩ <;> subst h
  · exact special_chars_facts.2.2.2.2.2.1
  · exact special_chars_facts.2.2.2.2.2.2.1
  · exact (digitChar_facts d hd).2.2.2.2.2.2.2.2.2

lemma natChars_no_trimWs (n : Nat) : ∀ c ∈ natChars n, trimIsWs c = false := by
  intro c hc
  obtain ⟨d, hd, h⟩ := natChars_shape n c hc
  subst h
  exact (digitChar_facts d hd).2.2.2.2.2.2.2.2.2

lemma fixContent_ne_nil (x : ℚ) : fixContent x ≠ [] := by
  rw [fixContent]
  intro habs
  have := congrArg List.length habs
  simp at this

lemma writeFixedFloat_ne_nil (x : ℚ) : writeFixedFloat x ≠ [] := by
  rw [writeFixedFloat, padLeftWith]
  intro habs
  exact fixContent_ne_nil x (List.append_eq_nil.mp habs).2

lemma getLast_append_ne (l1 l2 : List Char) (h : l2 ≠ []) :
    (l1 ++ l2).getLast? = l2.getLast? := by
  induction l1 with
  | nil => rfl
  | cons c t ih =>
    rw [List.cons_append]
    cases htl : t ++ l2 with
    | nil => exact absurd (List.append_eq_nil.mp htl).2 h
    | cons d u => rw [List.getLast?_cons_cons, ← htl, ih]

lemma mem_of_getLast_some (l : List Char) (c : Char) (h : l.getLast? = some c) : c ∈ l := by
  induction l with
  | nil => simp [List.getLast?] at h
  | cons d t ih =>
    cases t with
    | nil =>
      simp [List.getLast?] at h
      simp [h]
    | cons e u =>
      rw [List.getLast?_cons_cons] at h
      exact List.mem_cons_of_mem d (ih h)

lemma writeFixedFloat_getLast (x : ℚ) :
    ∀ c, (writeFixedFloat x).getLast? = some c → trimIsWs c = false := by
  intro c hc
  rw [writeFixedFloat, padLeftWith, getLast_append_ne _ _ (fixContent_ne_nil x)] at hc
  exact fixContent_no_trimWs x c (mem_of_getLast_some _ c hc)

lemma flatten_wff_getLast (xs : List ℚ) : xs ≠ [] →
    ∀ c, ((xs.map writeFixedFloat).flatten).getLast? = some c → trimIsWs c = false := by
  induction xs with
  | nil => intro h; exact absurd rfl h
  | cons x xs ih =>
    intro _ c hc
    rw [List.map_cons, List.flatten_cons] at hc
    cases hxs : xs with
    | nil =>
      subst hxs
      rw [List.map_nil, List.flatten_nil, List.append_nil] at hc
      exact writeFixedFloat_getLast x c hc
    | cons y ys =>
      rw [getLast_append_ne _ _ (by
        rw [hxs, List.map_cons, List.flatten_cons]
        intro habs
        exact writeFixedFloat_ne_nil y (List.append_eq_nil.mp habs).1)] at hc
      exact ih (by rw [hxs]; exact List.cons_ne_nil y ys) c hc

lemma writeFixedInt_eq (v : Int) (h0 : 0 ≤ v) (h1 : v < 4294967296) :
    writeFixedInt v = padLeftWith chSpace 5 (natChars v.toNat) := by
  rw [writeFixedInt]
  have h2 : (v % 4294967296).toNat = v.toNat := by omega
  rw [h2]

lemma writeFixedInt_no_nl (v : Int) : chNl ∉ writeFixedInt v := by
  rw [writeFixedInt]
  intro hc
  rcases List.mem_append.mp hc with h | h
  · exact absurd (List.eq_of_mem_replicate h) (by decide)
  · exact natChars_no_nl _ h

lemma writeFixedFloat_no_nl (x : ℚ) : chNl ∉ writeFixedFloat x := by
  rw [writeFixedFloat]
  intro hc
  rcases List.mem_append.mp hc with h | h
  · exact absurd (List.eq_of_mem_replicate h) (by decide)
  · exact fixContent_no_nl x h

lemma writeFixedFloat_head_space (x : ℚ) (h : (fixContent x).length < 12) :
    ∃ t, writeFixedFloat x = chSpace :: t := by
  rw [writeFixedFloat, padLeftWith]
  have h12 : 12 - (fixContent x).length = (11 - (fixContent x).length) + 1 := by omega
  rw [h12, List.replicate_succ]
  exact ⟨_, rfl⟩

lemma takeWhile_digit_space (t : List Char) :
    (chSpace :: t).takeWhile Char.isDigit = [] := by
  rw [List.takeWhile_cons, if_neg (by decide)]

lemma lexicalCastInt_natChars (m : Nat) : lexicalCastInt (natChars m) = (m : Int) := by
  have h := readIntS_token [] m [] (by intro c hc; simp at hc) rfl
  rw [List.nil_append, List.append_nil] at h
  rw [lexicalCastInt, mkStream, h]

lemma lexicalCastQ_fixContent (x : ℚ) : lexicalCastQ (fixContent x) = fixVal x := by
  have h := readQS_fix [] x [] (by intro c hc; simp at hc) rfl
    (by intro c hc; simp at hc)
  rw [List.nil_append, List.append_nil] at h
  rw [lexicalCastQ, mkStream, h]

lemma lexicalCastShort_natChars (m : Nat) (hm : m < 32768) :
    lexicalCastShort (natChars m) = (m : Int) := by
  rw [lexicalCastShort, lexicalCastInt_natChars, clampShort]
  rw [if_neg (by omega), if_neg (by omega)]

lemma toUChar_small (m : Nat) (hm : m < 256) : toUChar (m : Int) = m := by
  rw [toUChar]
  omega

lemma flatten_wff_split (xs : List ℚ) (hxs : ∀ x ∈ xs, (fixContent x).length < 12) :
    splitCh ((xs.map writeFixedFloat).flatten) chSpace = xs.map fixContent := by
  induction xs with
  | nil => rfl
  | cons x xs ih =>
    have hx := hxs x (List.mem_cons_self x xs)
    have hxs2 : ∀ u ∈ xs, (fixContent u).length < 12 :=
      fun u hu => hxs u (List.mem_cons_of_mem x hu)
    rw [List.map_cons, List.flatten_cons, writeFixedFloat, padLeftWith, List.append_assoc,
      splitCh_replicate_space]
    rw [splitCh_field (fixContent x) _ (fixContent_no_space x) (fixContent_ne_nil x) (by
      cases xs with
      | nil => exact Or.inl rfl
      | cons y ys =>
        refine Or.inr ?_
        rw [List.map_cons, List.flatten_cons]
        obtain ⟨t, ht⟩ := writeFixedFloat_head_space y
          (hxs2 y (List.mem_cons_self y ys))
        exact ⟨t ++ ((ys.map writeFixedFloat).flatten), by rw [ht]; rfl⟩)]
    rw [ih hxs2, List.map_cons]

lemma tok_line_fields (v : Int) (h0 : 0 ≤ v) (h1 : v < 4294967296)
    (xs : List ℚ) (hxs : ∀ x ∈ xs, (fixContent x).length < 12) (hne : xs ≠ []) :
    splitCh (trimmed (writeFixedInt v ++ (xs.map writeFixedFloat).flatten)) chSpace
      = natChars v.toNat :: xs.map fixContent := by
  rw [writeFixedInt_eq v h0 h1, padLeftWith, List.append_assoc]
  have hfne : (xs.map writeFixedFloat).flatten ≠ [] := by
    cases xs with
    | nil => exact absurd rfl hne
    | cons y ys =>
      rw [List.map_cons, List.flatten_cons]
      intro habs
      exact writeFixedFloat_ne_nil y (List.append_eq_nil.mp habs).1
  have hhead : (xs.map writeFixedFloat).flatten = [] ∨
      ∃ cs2, (xs.map writeFixedFloat).flatten = chSpace :: cs2 := by
    cases xs with
    | nil => exact absurd rfl hne
    | cons y ys =>
      refine Or.inr ?_
      rw [List.map_cons, List.flatten_cons]
      obtain ⟨t, ht⟩ := writeFixedFloat_head_space y
        (hxs y (List.mem_cons_self y ys))
      exact ⟨t ++ ((ys.map writeFixedFloat).flatten), by rw [ht]; rfl⟩
  rw [trimmed_pad _ _ (by simp [natChars_ne_nil]) (by
      intro c t heq
      obtain ⟨d, t2, hd, hn⟩ := natChars_head_digit v.toNat
      rw [hn, List.cons_append, List.cons.injEq] at heq
      rw [← heq.1]
      exact (digitChar_facts d hd).2.2.2.2.2.2.2.2.2)
    (by
      intro c hc
      rw [getLast_append_ne _ _ hfne] at hc
      exact flatten_wff_getLast xs hne c hc)]
  rw [splitCh_field (natChars v.toNat) _ (natChars_no_space _) (natChars_ne_nil _) hhead]
  rw [flatten_wff_split xs hxs]

unseal Rat.add Rat.mul Rat.inv in
lemma fixContent_zero_len : (fixContent (0 : ℚ)).length < 12 := by decide

lemma flatten_wff_no_nl (xs : List ℚ) : chNl ∉ (xs.map writeFixedFloat).flatten := by
  intro h
  obtain ⟨l, hl, hcl⟩ := List.mem_flatten.mp h
  obtain ⟨x, hx, hxl⟩ := List.mem_map.mp hl
  rw [← hxl] at hcl
  exact writeFixedFloat_no_nl x hcl

lemma atomBody_no_nl (a : Atom) : chNl ∉ atomBody a := by
  rw [atomBody]
  intro hc
  rcases List.mem_append.mp hc with h | h
  · exact writeFixedInt_no_nl _ h
  · exact flatten_wff_no_nl _ h

lemma atomLine_shape (a : Atom) (r : List Char) :
    atomLine a ++ r = atomBody a ++ (chNl :: r) := by
  rw [atomLine, atomBody]
  simp [List.append_assoc, nlC]

lemma atomBody_fields (a : Atom) (hok : atomOk a) :
    splitCh (trimmed (atomBody a)) chSpace =
      [natChars a.atomicNumber, fixContent 0, fixContent (a.pos.x * ANGSTROM_TO_BOHR),
       fixContent (a.pos.y * ANGSTROM_TO_BOHR), fixContent (a.pos.z * ANGSTROM_TO_BOHR)] := by
  obtain ⟨hN, hx, hy, hz⟩ := hok
  rw [atomBody]
  have h := tok_line_fields (a.atomicNumber : Int) (by positivity) (by omega)
    [0, a.pos.x * ANGSTROM_TO_BOHR, a.pos.y * ANGSTROM_TO_BOHR, a.pos.z * ANGSTROM_TO_BOHR]
    (by
      intro u hu
      simp only [List.mem_cons, List.not_mem_nil, or_false] at hu
      rcases hu with h0 | h0 | h0 | h0 <;> subst h0
      · exact fixContent_zero_len
      · exact hx.1
      · exact hy.1
      · exact hz.1)
    (by simp)
  simpa using h

lemma atomFieldsRaw_fields (n0 f1 f2 f3 f4 : List Char) :
    atomFieldsRaw [n0, f1, f2, f3, f4] =
      some (lexicalCastShort n0, ⟨lexicalCastQ f2, lexicalCastQ f3, lexicalCastQ f4⟩) := rfl

lemma readAtomsLoop_write (atoms : List Atom) : ∀ (acc : AtomsAcc) (rest : List Char),
    (∀ a ∈ atoms, atomOk a) →
    acc.s = ⟨(atoms.map atomLine).flatten ++ rest, false⟩ →
    ∃ lastL, readAtomsLoop atoms.length acc = some
      ⟨⟨rest, false⟩, lastL, acc.atoms ++ atoms.map decAtomOf, acc.raws ++ atoms.map rawOf,
        acc.tr ++ atoms.map (fun a => Ev.addAtom a.atomicNumber)⟩ := by
  induction atoms with
  | nil =>
    intro acc rest hok hs
    refine ⟨acc.line, ?_⟩
    simp only [List.length_nil, readAtomsLoop, List.map_nil, List.append_nil]
    rw [show (⟨rest, false⟩ : IStream) = acc.s from by rw [hs]; rfl]
  | cons a atoms ih =>
    intro acc rest hok hs
    have hokA : atomOk a := hok a (List.mem_cons_self a atoms)
    have hN : a.atomicNumber < 256 := hokA.1
    have hdata : ((a :: atoms).map atomLine).flatten ++ rest =
        atomBody a ++ (chNl :: ((atoms.map atomLine).flatten ++ rest)) := by
      rw [List.map_cons, List.flatten_cons, List.append_assoc, atomLine_shape]
    have hget := getlineS_line (atomBody a) ((atoms.map atomLine).flatten ++ rest) acc.line
      (atomBody_no_nl a)
    have hget1 : (getlineS ⟨atomBody a ++ (chNl :: ((atoms.map atomLine).flatten ++ rest)),
        false⟩ acc.line).1 = atomBody a := by rw [hget]
    have hget2 : (getlineS ⟨atomBody a ++ (chNl :: ((atoms.map atomLine).flatten ++ rest)),
        false⟩ acc.line).2 = ⟨(atoms.map atomLine).flatten ++ rest, false⟩ := by rw [hget]
    have hfields := atomBody_fields a hokA
    have hraw : atomFieldsRaw [natChars a.atomicNumber, fixContent 0,
        fixContent (a.pos.x * ANGSTROM_TO_BOHR), fixContent (a.pos.y * ANGSTROM_TO_BOHR),
        fixContent (a.pos.z * ANGSTROM_TO_BOHR)] = some (rawOf a) := by
      rw [atomFieldsRaw_fields]
      rw [lexicalCastShort_natChars a.atomicNumber (by omega), lexicalCastQ_fixContent,
        lexicalCastQ_fixContent, lexicalCastQ_fixContent]
      rfl
    have hstep : readAtomsLoop (a :: atoms).length acc =
        readAtomsLoop atoms.length
          ⟨⟨(atoms.map atomLine).flatten ++ rest, false⟩, atomBody a,
            acc.atoms ++ [mkDecodedAtom (rawOf a)], acc.raws ++ [rawOf a],
            acc.tr ++ [Ev.addAtom (toUChar (rawOf a).1)]⟩ := by
      simp only [List.length_cons, readAtomsLoop]
      rw [hs, hdata, hget1, hget2, hfields, hraw]
    have hmk : mkDecodedAtom (rawOf a) = decAtomOf a := by
      rw [mkDecodedAtom, decAtomOf]
      simp [rawOf, toUChar_small a.atomicNumber hN]
    have hev : toUChar (rawOf a).1 = a.atomicNumber := toUChar_small a.atomicNumber hN
    obtain ⟨lastL, hrec⟩ := ih ⟨⟨(atoms.map atomLine).flatten ++ rest, false⟩, atomBody a,
        acc.atoms ++ [decAtomOf a], acc.raws ++ [rawOf a],
        acc.tr ++ [Ev.addAtom a.atomicNumber]⟩ rest
      (fun u hu => hok u (List.mem_cons_of_mem a hu)) rfl
    refine ⟨lastL, ?_⟩
    rw [hstep, hmk, hev, hrec]
    simp

lemma writeFixedInt_head_space (v : Int) (h : (natChars (v % 4294967296).toNat).length < 5) :
    ∃ t, writeFixedInt v = chSpace :: t := by
  rw [writeFixedInt, padLeftWith]
  have h5 : 5 - (natChars (v % 4294967296).toNat).length
      = (4 - (natChars (v % 4294967296).toNat).length) + 1 := by omega
  rw [h5, List.replicate_succ]
  exact ⟨_, rfl⟩

lemma takeWhile_digit_pad_fix (x : ℚ) (R : List Char) (h : (fixContent x).length < 12) :
    (List.replicate (12 - (fixContent x).length) chSpace ++
      (fixContent x ++ R)).takeWhile Char.isDigit = [] := by
  have h12 : 12 - (fixContent x).length = (11 - (fixContent x).length) + 1 := by omega
  rw [h12, List.replicate_succ, List.cons_append]
  exact takeWhile_digit_space _

lemma headE_pad_fix (x : ℚ) (R : List Char) (h : (fixContent x).length < 12) :
    ∀ cc, (List.replicate (12 - (fixContent x).length) chSpace ++
        (fixContent x ++ R)).head? = some cc → (cc == chE || cc == chEUp) = false := by
  have h12 : 12 - (fixContent x).length = (11 - (fixContent x).length) + 1 := by omega
  rw [h12, List.replicate_succ, List.cons_append]
  intro cc hcc
  rw [List.head?_cons, Option.some.injEq] at hcc
  subst hcc
  decide

lemma takeWhile_digit_wfi1 (R : List Char) :
    (writeFixedInt 1 ++ (chNl :: R)).takeWhile Char.isDigit = [] := by
  obtain ⟨t, ht⟩ := writeFixedInt_head_space 1 (by decide)
  rw [ht, List.cons_append]
  exact takeWhile_digit_space _

lemma headE_wfi1 (R : List Char) :
    ∀ cc, (writeFixedInt 1 ++ (chNl :: R)).head? = some cc →
      (cc == chE || cc == chEUp) = false := by
  obtain ⟨t, ht⟩ := writeFixedInt_head_space 1 (by decide)
  rw [ht, List.cons_append]
  intro cc hcc
  rw [List.head?_cons, Option.some.injEq] at hcc
  subst hcc
  decide

lemma int_flatten_no_nl (v : Int) (xs : List ℚ) :
    chNl ∉ writeFixedInt v ++ (xs.map writeFixedFloat).flatten := by
  intro hc
  rcases List.mem_append.mp hc with h | h
  · exact writeFixedInt_no_nl v h
  · exact flatten_wff_no_nl xs h

lemma readAxisLine_exec (i : Nat) (v : Int) (h0 : 0 ≤ v) (h1 : v < 4294967296)
    (xs : List ℚ) (hxs : ∀ x ∈ xs, (fixContent x).length < 12) (hne : xs ≠ [])
    (y : ℚ) (hy : xs.get? i = some y) (R prev : List Char) :
    readAxisLine i ⟨(writeFixedInt v ++ (xs.map writeFixedFloat).flatten) ++ (chNl :: R),
        false⟩ prev
      = some (⟨R, false⟩, writeFixedInt v ++ (xs.map writeFixedFloat).flatten, v, fixVal y) := by
  have hget := getlineS_line (writeFixedInt v ++ (xs.map writeFixedFloat).flatten) R prev
    (int_flatten_no_nl v xs)
  have hget1 : (getlineS ⟨(writeFixedInt v ++ (xs.map writeFixedFloat).flatten) ++ (chNl :: R),
      false⟩ prev).1 = writeFixedInt v ++ (xs.map writeFixedFloat).flatten := by rw [hget]
  have hget2 : (getlineS ⟨(writeFixedInt v ++ (xs.map writeFixedFloat).flatten) ++ (chNl :: R),
      false⟩ prev).2 = ⟨R, false⟩ := by rw [hget]
  have hfields := tok_line_fields v h0 h1 xs hxs hne
  have hg0 : (natChars v.toNat :: xs.map fixContent).get? 0 = some (natChars v.toNat) := rfl
  have hgi : (natChars v.toNat :: xs.map fixContent).get? (i + 1) = some (fixContent y) := by
    rw [List.get?_cons_succ, List.get?_map, hy]
    rfl
  have hax : axisFromFields i (natChars v.toNat :: xs.map fixContent) = some (v, fixVal y) := by
    simp only [axisFromFields, bind, hg0, hgi, Option.some_bind]
    rw [lexicalCastInt_natChars, lexicalCastQ_fixContent, Int.toNat_of_nonneg h0]
  simp only [readAxisLine, bind, hget1, hget2, hfields, hax, Option.some_bind]

lemma readCubesLoop_write_one (cmin spacing : Vec3) (dim : Vec3i) (vdata : List ℚ)
    (h0x : 0 ≤ dim.x) (h0y : 0 ≤ dim.y) (h0z : 0 ≤ dim.z)
    (hvl : vdata.length = (dim.x * dim.y * dim.z).toNat)
    (hsci : ∀ v ∈ vdata, sciOk v) (line : List Char) (tr : List Ev) :
    ∃ s2 l2, readCubesLoop cmin dim spacing 1 ⟨⟨writeValuesAux 0 vdata, false⟩, line, [], tr⟩
      = some ⟨s2, l2, [⟨cmin, dim, spacing, vdata.map sciVal⟩],
          tr ++ [Ev.addCube, Ev.setCubeData]⟩ := by
  have hnn : ¬(dim.x * dim.y * dim.z < 0) :=
    not_lt.mpr (mul_nonneg (mul_nonneg h0x h0y) h0z)
  have hp1 : (readVoxels vdata.length ⟨writeValuesAux 0 vdata, false⟩).1
      = vdata.map sciVal := by
    rw [show (writeValuesAux 0 vdata) = [] ++ writeValuesAux 0 vdata from rfl]
    exact readVoxels_writeValues vdata 0 [] (by intro c hc; simp at hc) hsci
  refine ⟨(getlineS (readVoxels vdata.length ⟨writeValuesAux 0 vdata, false⟩).2 line).2,
    (getlineS (readVoxels vdata.length ⟨writeValuesAux 0 vdata, false⟩).2 line).1, ?_⟩
  rw [show (1 : Nat) = 0 + 1 from rfl]
  simp only [readCubesLoop, hnn, if_false, ← hvl, hp1]
  rfl

lemma read_write_exec (mol : Molecule) (c : Cube) (cs : List Cube)
    (hm : molOk mol) (hc : cubeOk c) (hcs : mol.cubes = c :: cs) :
    read (write mol).1 emptyMol = some
      ⟨⟨banner, mol.atoms.map decAtomOf,
        [⟨Vec3.scale BOHR_TO_ANGSTROM
            ⟨fixVal (ANGSTROM_TO_BOHR * c.cmin.x), fixVal (ANGSTROM_TO_BOHR * c.cmin.y),
             fixVal (ANGSTROM_TO_BOHR * c.cmin.z)⟩,
          c.dim,
          Vec3.scale BOHR_TO_ANGSTROM
            ⟨fixVal (ANGSTROM_TO_BOHR * c.spacing.x), fixVal (ANGSTROM_TO_BOHR * c.spacing.y),
             fixVal (ANGSTROM_TO_BOHR * c.spacing.z)⟩,
          c.vdata.map sciVal⟩]⟩,
       (mol.atoms.map fun a => Ev.addAtom a.atomicNumber) ++
         [Ev.perceiveBonds, Ev.addCube, Ev.setCubeData],
       ⟨(mol.atoms.length : Int),
        ⟨fixVal (ANGSTROM_TO_BOHR * c.cmin.x), fixVal (ANGSTROM_TO_BOHR * c.cmin.y),
         fixVal (ANGSTROM_TO_BOHR * c.cmin.z)⟩,
        c.dim,
        ⟨fixVal (ANGSTROM_TO_BOHR * c.spacing.x), fixVal (ANGSTROM_TO_BOHR * c.spacing.y),
         fixVal (ANGSTROM_TO_BOHR * c.spacing.z)⟩,
        1, mol.atoms.map rawOf⟩,
       true⟩ := by
  obtain ⟨hnameNl, hlenLt, hatomsOk⟩ := hm
  obtain ⟨hdx0, hdx1, hdy0, hdy1, hdz0, hdz1, hvlen, hmx, hmy, hmz, hsx, hsy, hsz, hsci⟩ := hc
  have hlayout : (write mol).1 =
      banner ++ (chNl :: ((if mol.name.length ≠ 0 then mol.name else []) ++ (chNl ::
        (List.replicate (5 - (natChars mol.atoms.length).length) chSpace ++
          (natChars mol.atoms.length ++
        (List.replicate (12 - (fixContent (ANGSTROM_TO_BOHR * c.cmin.x)).length) chSpace ++
          (fixContent (ANGSTROM_TO_BOHR * c.cmin.x) ++
        (List.replicate (12 - (fixContent (ANGSTROM_TO_BOHR * c.cmin.y)).length) chSpace ++
          (fixContent (ANGSTROM_TO_BOHR * c.cmin.y) ++
        (List.replicate (12 - (fixContent (ANGSTROM_TO_BOHR * c.cmin.z)).length) chSpace ++
          (fixContent (ANGSTROM_TO_BOHR * c.cmin.z) ++
        (writeFixedInt 1 ++ (chNl ::
        ((writeFixedInt c.dim.x ++
            (([ANGSTROM_TO_BOHR * c.spacing.x, 0, 0]).map writeFixedFloat).flatten) ++ (chNl ::
        ((writeFixedInt c.dim.y ++
            (([0, ANGSTROM_TO_BOHR * c.spacing.y, 0]).map writeFixedFloat).flatten) ++ (chNl ::
        ((writeFixedInt c.dim.z ++
            (([0, 0, ANGSTROM_TO_BOHR * c.spacing.z]).map writeFixedFloat).flatten) ++ (chNl ::
        ((mol.atoms.map atomLine).flatten ++
          writeValuesAux 0 c.vdata)))))))))))))))))))) := by
    simp only [write]
    rw [hcs]
    rw [writeFixedInt_eq (mol.atoms.length : Int) (by positivity) (by omega)]
    simp [writeFixedFloat, padLeftWith, Vec3.scale, nlC, writeValues, List.append_assoc]
  rw [hlayout]
  generalize hR10 : (mol.atoms.map atomLine).flatten ++ writeValuesAux 0 c.vdata = R10
  generalize hR9 : (writeFixedInt c.dim.z ++
      (([0, 0, ANGSTROM_TO_BOHR * c.spacing.z]).map writeFixedFloat).flatten) ++ (chNl :: R10) = R9
  generalize hR8 : (writeFixedInt c.dim.y ++
      (([0, ANGSTROM_TO_BOHR * c.spacing.y, 0]).map writeFixedFloat).flatten) ++ (chNl :: R9) = R8
  generalize hR7 : (writeFixedInt c.dim.x ++
      (([ANGSTROM_TO_BOHR * c.spacing.x, 0, 0]).map writeFixedFloat).flatten) ++ (chNl :: R8) = R7
  generalize hR6 : writeFixedInt 1 ++ (chNl :: R7) = R6
  generalize hR5 :
    List.replicate (12 - (fixContent (ANGSTROM_TO_BOHR * c.cmin.z)).length) chSpace ++
      (fixContent (ANGSTROM_TO_BOHR * c.cmin.z) ++ R6) = R5
  generalize hR4 :
    List.replicate (12 - (fixContent (ANGSTROM_TO_BOHR * c.cmin.y)).length) chSpace ++
      (fixContent (ANGSTROM_TO_BOHR * c.cmin.y) ++ R5) = R4
  generalize hR3 :
    List.replicate (12 - (fixContent (ANGSTROM_TO_BOHR * c.cmin.x)).length) chSpace ++
      (fixContent (ANGSTROM_TO_BOHR * c.cmin.x) ++ R4) = R3
  generalize hR2 : List.replicate (5 - (natChars mol.atoms.length).length) chSpace ++
      (natChars mol.atoms.length ++ R3) = R2
  generalize hR1 : (if mol.name.length ≠ 0 then mol.name else []) ++ (chNl :: R2) = R1
  have hg1 : getlineS (mkStream (banner ++ (chNl :: R1))) [] = (banner, ⟨R1, false⟩) := by
    rw [mkStream]
    exact getlineS_line banner R1 [] (by decide)
  have hg2 : getlineS ⟨R1, false⟩ banner
      = ((if mol.name.length ≠ 0 then mol.name else []), ⟨R2, false⟩) := by
    rw [← hR1]
    exact getlineS_line _ R2 banner (by
      split
      · exact hnameNl
      · simp)
  have hpn : readIntS ⟨R2, false⟩ = ((mol.atoms.length : Int), ⟨R3, false⟩) := by
    rw [← hR2]
    exact readIntS_token _ mol.atoms.length R3
      (by intro ch hch; rw [List.eq_of_mem_replicate hch]; decide)
      (by rw [← hR3]; exact takeWhile_digit_pad_fix _ _ hmx.1)
  have hq1 : readQS ⟨R3, false⟩ = (fixVal (ANGSTROM_TO_BOHR * c.cmin.x), ⟨R4, false⟩) := by
    rw [← hR3]
    exact readQS_fix _ _ R4 (by intro ch hch; rw [List.eq_of_mem_replicate hch]; decide)
      (by rw [← hR4]; exact takeWhile_digit_pad_fix _ _ hmy.1)
      (by rw [← hR4]; exact headE_pad_fix _ _ hmy.1)
  have hq2 : readQS ⟨R4, false⟩ = (fixVal (ANGSTROM_TO_BOHR * c.cmin.y), ⟨R5, false⟩) := by
    rw [← hR4]
    exact readQS_fix _ _ R5 (by intro ch hch; rw [List.eq_of_mem_replicate hch]; decide)
      (by rw [← hR5]; exact takeWhile_digit_pad_fix _ _ hmz.1)
      (by rw [← hR5]; exact headE_pad_fix _ _ hmz.1)
  have hq3 : readQS ⟨R5, false⟩ = (fixVal (ANGSTROM_TO_BOHR * c.cmin.z), ⟨R6, false⟩) := by
    rw [← hR5]
    exact readQS_fix _ _ R6 (by intro ch hch; rw [List.eq_of_mem_replicate hch]; decide)
      (by rw [← hR6]; exact takeWhile_digit_wfi1 R7)
      (by rw [← hR6]; exact headE_wfi1 R7)
  have hg3 : getlineS ⟨R6, false⟩ (if mol.name.length ≠ 0 then mol.name else [])
      = (writeFixedInt 1, ⟨R7, false⟩) := by
    rw [← hR6]
    exact getlineS_line _ R7 _ (writeFixedInt_no_nl 1)
  have ha0 : readAxisLine 0 ⟨R7, false⟩ (writeFixedInt 1)
      = some (⟨R8, false⟩,
          writeFixedInt c.dim.x ++
            (([ANGSTROM_TO_BOHR * c.spacing.x, 0, 0]).map writeFixedFloat).flatten,
          c.dim.x, fixVal (ANGSTROM_TO_BOHR * c.spacing.x)) := by
    rw [← hR7]
    exact readAxisLine_exec 0 c.dim.x hdx0 (by omega)
      [ANGSTROM_TO_BOHR * c.spacing.x, 0, 0]
      (by
        intro u hu
        simp only [List.mem_cons, List.not_mem_nil, or_false] at hu
        rcases hu with h | h | h <;> subst h
        · exact hsx.1
        · exact fixContent_zero_len
        · exact fixContent_zero_len)
      (by simp) (ANGSTROM_TO_BOHR * c.spacing.x) rfl R8 (writeFixedInt 1)
  have ha1 : readAxisLine 1 ⟨R8, false⟩
      (writeFixedInt c.dim.x ++
        (([ANGSTROM_TO_BOHR * c.spacing.x, 0, 0]).map writeFixedFloat).flatten)
      = some (⟨R9, false⟩,
          writeFixedInt c.dim.y ++
            (([0, ANGSTROM_TO_BOHR * c.spacing.y, 0]).map writeFixedFloat).flatten,
          c.dim.y, fixVal (ANGSTROM_TO_BOHR * c.spacing.y)) := by
    rw [← hR8]
    exact readAxisLine_exec 1 c.dim.y hdy0 (by omega)
      [0, ANGSTROM_TO_BOHR * c.spacing.y, 0]
      (by
        intro u hu
        simp only [List.mem_cons, List.not_mem_nil, or_false] at hu
        rcases hu with h | h | h <;> subst h
        · exact fixContent_zero_len
        · exact hsy.1
        · exact fixContent_zero_len)
      (by simp) (ANGSTROM_TO_BOHR * c.spacing.y) rfl R9 _
  have ha2 : readAxisLine 2 ⟨R9, false⟩
      (writeFixedInt c.dim.y ++
        (([0, ANGSTROM_TO_BOHR * c.spacing.y, 0]).map writeFixedFloat).flatten)
      = some (⟨R10, false⟩,
          writeFixedInt c.dim.z ++
            (([0, 0, ANGSTROM_TO_BOHR * c.spacing.z]).map writeFixedFloat).flatten,
          c.dim.z, fixVal (ANGSTROM_TO_BOHR * c.spacing.z)) := by
    rw [← hR9]
    exact readAxisLine_exec 2 c.dim.z hdz0 (by omega)
      [0, 0, ANGSTROM_TO_BOHR * c.spacing.z]
      (by
        intro u hu
        simp only [List.mem_cons, List.not_mem_nil, or_false] at hu
        rcases hu with h | h | h <;> subst h
        · exact fixContent_zero_len
        · exact fixContent_zero_len
        · exact hsz.1)
      (by simp) (ANGSTROM_TO_BOHR * c.spacing.z) rfl R10 _
  obtain ⟨lastL, hatoms⟩ := readAtomsLoop_write mol.atoms
    ⟨⟨R10, false⟩, writeFixedInt c.dim.z ++
        (([0, 0, ANGSTROM_TO_BOHR * c.spacing.z]).map writeFixedFloat).flatten, [], [], []⟩
    (writeValuesAux 0 c.vdata) hatomsOk (by rw [← hR10])
  have hnc : readNCubes (mol.atoms.length : Int) ⟨writeValuesAux 0 c.vdata, false⟩ lastL
      = some (1, ⟨writeValuesAux 0 c.vdata, false⟩, lastL) :=
    readNCubes_nonneg _ _ _ (by positivity)
  obtain ⟨s2, l2, hcube⟩ := readCubesLoop_write_one
    (Vec3.scale BOHR_TO_ANGSTROM ⟨fixVal (ANGSTROM_TO_BOHR * c.cmin.x),
      fixVal (ANGSTROM_TO_BOHR * c.cmin.y), fixVal (ANGSTROM_TO_BOHR * c.cmin.z)⟩)
    (Vec3.scale BOHR_TO_ANGSTROM ⟨fixVal (ANGSTROM_TO_BOHR * c.spacing.x),
      fixVal (ANGSTROM_TO_BOHR * c.spacing.y), fixVal (ANGSTROM_TO_BOHR * c.spacing.z)⟩)
    c.dim c.vdata hdx0 hdy0 hdz0 hvlen hsci lastL
    (([] ++ mol.atoms.map fun a => Ev.addAtom a.atomicNumber) ++ [Ev.perceiveBonds])
  simp only [read, bind, hg1, hg2, hpn, hq1, hq2, hq3, hg3, ha0, ha1, ha2,
    Int.natAbs_ofNat, hatoms, hnc, hcube, Option.some_bind]
  simp [emptyMol]

lemma AB_cancel : ANGSTROM_TO_BOHR * BOHR_TO_ANGSTROM = 1 := by
  rw [ANGSTROM_TO_BOHR, BOHR_TO_ANGSTROM]
  norm_num

lemma ABt (t : ℚ) : ANGSTROM_TO_BOHR * (BOHR_TO_ANGSTROM * t) = t := by
  rw [← mul_assoc, AB_cancel, one_mul]

lemma BtA (t : ℚ) : BOHR_TO_ANGSTROM * t * ANGSTROM_TO_BOHR = t := by
  rw [mul_comm BOHR_TO_ANGSTROM t, mul_assoc]
  rw [show BOHR_TO_ANGSTROM * ANGSTROM_TO_BOHR = 1 from by
    rw [mul_comm]; exact AB_cancel]
  rw [mul_one]

lemma wff_roundtrip (x : ℚ) (h : fixOk x) : writeFixedFloat (fixVal x) = writeFixedFloat x := by
  rw [writeFixedFloat, writeFixedFloat, fixContent_roundtrip x h]

lemma writeValuesAux_map_sciVal (vs : List ℚ) :
    ∀ i, writeValuesAux i (vs.map sciVal) = writeValuesAux i vs := by
  induction vs with
  | nil => intro i; rfl
  | cons v vs ih =>
    intro i
    rw [List.map_cons, writeValuesAux, writeValuesAux, writeSciFloat_roundtrip, ih]

lemma atomLine_decAtomOf (a : Atom) (hok : atomOk a) :
    atomLine (decAtomOf a) = atomLine a := by
  obtain ⟨hN, hx, hy, hz⟩ := hok
  rw [atomLine, atomLine]
  simp only [decAtomOf, Vec3.scale]
  rw [BtA, BtA, BtA]
  rw [wff_roundtrip _ hx, wff_roundtrip _ hy, wff_roundtrip _ hz]

/-- C10: for a well-formed molecule accepted by encode (nonempty grid
list), the atom-count field of the third output line carries the
molecule's atom count, a nonnegative value, regardless of how many
grids the molecule owns; decoding the encode output therefore takes the
single-cube path and produces exactly one grid. -/
theorem c10_encode_count_single_grid (mol : Molecule) (c : Cube) (cs : List Cube)
    (hm : molOk mol) (hc : cubeOk c) (hcs : mol.cubes = c :: cs) :
    (write mol).2 = true ∧
    ∃ res, read (write mol).1 emptyMol = some res ∧
      res.hdr.nAtoms = (mol.atoms.length : Int) ∧
      0 ≤ res.hdr.nAtoms ∧
      res.mol.cubes.length = 1 := by
  refine ⟨by simp [write, hcs], ⟨_, read_write_exec mol c cs hm hc hcs, rfl, ?_, rfl⟩⟩
  exact Int.natCast_nonneg mol.atoms.length

unseal Rat.add Rat.mul Rat.inv in
/-- C10 witness: the theorem applied to the concrete one-atom one-cube
molecule. -/
theorem c10_witness :
    (write demoMol).2 = true ∧
    ∃ res, read (write demoMol).1 emptyMol = some res ∧
      res.hdr.nAtoms = (demoMol.atoms.length : Int) ∧
      0 ≤ res.hdr.nAtoms ∧
      res.mol.cubes.length = 1 :=
  c10_encode_count_single_grid demoMol
    ⟨⟨0, 0, 0⟩, ⟨1, 1, 1⟩, ⟨BOHR_TO_ANGSTROM, BOHR_TO_ANGSTROM, BOHR_TO_ANGSTROM⟩, [0]⟩ []
    (by simp only [molOk, atomOk, fixOk]; decide)
    (by simp only [cubeOk, fixOk, sciOk]; decide) rfl

/-- C5 (amended): encode, decode, re-encode of a well-formed single-grid
molecule reproduces the first encode byte for byte except on the second
output line: the first encode writes the molecule name (or a blank
line) there, while the re-encode writes the banner, because decode
stores the first line of the file - the banner - as the name. -/
theorem c5_round_trip_second_line (mol : Molecule) (c : Cube)
    (hm : molOk mol) (hc : cubeOk c) (hcs : mol.cubes = [c]) :
    ∃ res tail, read (write mol).1 emptyMol = some res ∧ res.ok = true ∧
      (write res.mol).2 = true ∧
      (write mol).1 = banner ++ nlC ++
        ((if mol.name.length ≠ 0 then mol.name else []) ++ (nlC ++ tail)) ∧
      (write res.mol).1 = banner ++ nlC ++ (banner ++ (nlC ++ tail)) := by
  obtain ⟨hnameNl, hlenLt, hatomsOk⟩ := hm
  have hc2 := hc
  obtain ⟨hdx0, hdx1, hdy0, hdy1, hdz0, hdz1, hvlen, hmx, hmy, hmz, hsx, hsy, hsz, hsci⟩ := hc2
  have hm2 : molOk mol := ⟨hnameNl, hlenLt, hatomsOk⟩
  refine ⟨_, writeFixedInt (mol.atoms.length : Int) ++
      (writeFixedFloat (ANGSTROM_TO_BOHR * c.cmin.x) ++
      (writeFixedFloat (ANGSTROM_TO_BOHR * c.cmin.y) ++
      (writeFixedFloat (ANGSTROM_TO_BOHR * c.cmin.z) ++
      (writeFixedInt 1 ++ (nlC ++
      (writeFixedInt c.dim.x ++
      (writeFixedFloat (ANGSTROM_TO_BOHR * c.spacing.x) ++
      (writeFixedFloat 0 ++ (writeFixedFloat 0 ++ (nlC ++
      (writeFixedInt c.dim.y ++
      (writeFixedFloat 0 ++
      (writeFixedFloat (ANGSTROM_TO_BOHR * c.spacing.y) ++
      (writeFixedFloat 0 ++ (nlC ++
      (writeFixedInt c.dim.z ++
      (writeFixedFloat 0 ++ (writeFixedFloat 0 ++
      (writeFixedFloat (ANGSTROM_TO_BOHR * c.spacing.z) ++ (nlC ++
      ((mol.atoms.map atomLine).flatten ++
        writeValuesAux 0 c.vdata))))))))))))))))))))),
    read_write_exec mol c [] hm2 hc hcs, rfl, rfl, ?_, ?_⟩
  · simp only [write]
    rw [hcs]
    simp [Vec3.scale, writeValues, List.append_assoc]
  · have hmap : (mol.atoms.map decAtomOf).map atomLine = mol.atoms.map atomLine := by
      rw [List.map_map]
      exact List.map_congr_left (fun a ha => atomLine_decAtomOf a (hatomsOk a ha))
    simp only [write, Vec3.scale, List.length_map, writeValues, hmap, ABt,
      writeValuesAux_map_sciVal]
    rw [if_pos (show (banner : List Char).length ≠ 0 from by decide)]
    rw [wff_roundtrip _ hmx, wff_roundtrip _ hmy, wff_roundtrip _ hmz,
      wff_roundtrip _ hsx, wff_roundtrip _ hsy, wff_roundtrip _ hsz]
    simp [List.append_assoc]

unseal Rat.add Rat.mul Rat.inv in
/-- C5 counterexample: for the concrete single-grid molecule, whose
numeric fields are all exactly representable at the declared precision,
the re-encode of the decoded result differs from the first encode (the
second line holds the banner instead of the name), refuting
byte-identity as literally claimed. -/
theorem c5_counterexample :
    (read (write demoMol).1 emptyMol).isSome = true ∧
    ¬((read (write demoMol).1 emptyMol).map (fun r => (write r.mol).1)
        = some (write demoMol).1) := by
  decide

unseal Rat.add Rat.mul Rat.inv in
/-- C5 witness: the amended theorem applied to the concrete single-grid
molecule. -/
theorem c5_witness :
    ∃ res tail, read (write demoMol).1 emptyMol = some res ∧ res.ok = true ∧
      (write res.mol).2 = true ∧
      (write demoMol).1 = banner ++ nlC ++
        ((if demoMol.name.length ≠ 0 then demoMol.name else []) ++ (nlC ++ tail)) ∧
      (write res.mol).1 = banner ++ nlC ++ (banner ++ (nlC ++ tail)) :=
  c5_round_trip_second_line demoMol
    ⟨⟨0, 0, 0⟩, ⟨1, 1, 1⟩, ⟨BOHR_TO_ANGSTROM, BOHR_TO_ANGSTROM, BOHR_TO_ANGSTROM⟩, [0]⟩
    (by simp only [molOk, atomOk, fixOk]; decide)
    (by simp only [cubeOk, fixOk, sciOk]; decide) rfl

end GC
